import Mathlib

/-!
# F3 frame decoding (ld-process-efm, `Datatypes/f3frame.cpp`)

A shallow embedding of `F3Frame` from `tools/ld-process-efm/Datatypes/f3frame.cpp`
and a verification of its decoding contract.

Conventions of the embedding

* `qint32` values are `Int`; loop counters and array indices that the source never
  lets go negative (`bytePosition`, `lutPos`, `i`, `counter`, `bitIndex`, `width`)
  are `Nat`.
* `uchar` values are `Nat`; an assignment to a `uchar` reduces modulo 256.
* `QByteArray` is a `List Nat` of byte values (0..255).
* `uchar rawFrameData[75]` is a `List Nat`.  The array is a local variable that the
  source does not initialise, so its contents on entry are whatever the stack held;
  they are the explicit argument `rawFrameData0` of `setTValues`.
* `efm2numberLUT` is declared in `f3frame.h`, which is not part of the sources at
  hand; it is an argument of type `Fin 256 → Int` (256 channel codes indexed by
  source value).
-/

namespace LdProcessEfm

/-! ## Data model -/

/-- The member variables of class `F3Frame`. -/
structure F3Frame where
  isSync0 : Bool
  isSync1 : Bool
  subcodeSymbol : Nat
  dataSymbols : List Nat
  errorSymbols : List Nat
deriving DecidableEq

set_option linter.dupNamespace false in
/-- The constructor `F3Frame::F3Frame()` (lines 34-42). -/
def F3Frame.F3Frame : F3Frame :=
  { isSync0 := false
    isSync1 := false
    subcodeSymbol := 0
    dataSymbols := List.replicate 32 0
    errorSymbols := List.replicate 32 0 }

/-- The translation table `efm2numberLUT[256]`, indexed by source value. -/
abbrev EfmTable := Fin 256 → Int

/-! ## `translateEfm` (lines 193-205) -/

/-- The `for (lutPos ...; lutPos < 256; lutPos++)` loop of `translateEfm`, entered at
`lutPos` with `fuel` iterations to go; the initial `result = -1` is returned when the
loop ends without a match. -/
def translateEfmLoop (efm2numberLUT : EfmTable) (efmValue : Int) : Nat → Nat → Int
  | 0, _ => -1
  | fuel + 1, lutPos =>
    if h : lutPos < 256 then
      if efm2numberLUT ⟨lutPos, h⟩ = efmValue then (lutPos : Int)
      else translateEfmLoop efm2numberLUT efmValue fuel (lutPos + 1)
    else -1

/-- The method `F3Frame::translateEfm`: -1 if the EFM value is invalid. -/
def translateEfm (efm2numberLUT : EfmTable) (efmValue : Int) : Int :=
  translateEfmLoop efm2numberLUT efmValue 256 0

/-! ## `getBits` (lines 208-225) -/

/-- The `for (nBits = width - 1; nBits > -1; nBits--)` loop of `getBits`; the first
argument is `nBits + 1`. -/
def getBitsLoop (rawData : List Nat) : Nat → Nat → Int → Int → Int
  | 0, _, _, result => result
  | nBits + 1, byteIndex, bitInByteIndex, result =>
    let result :=
      if rawData.getD byteIndex 0 &&& (1 <<< bitInByteIndex.toNat) ≠ 0
      then result + ((1 <<< nBits : Nat) : Int) else result
    let bitInByteIndex := bitInByteIndex - 1
    if bitInByteIndex < 0 then getBitsLoop rawData nBits (byteIndex + 1) 7 result
    else getBitsLoop rawData nBits byteIndex bitInByteIndex result

/-- The method `F3Frame::getBits`: `width` bits (max 31) from a byte array starting
from bit `bitIndex`. -/
def getBits (rawData : List Nat) (bitIndex width : Nat) : Int :=
  getBitsLoop rawData width (bitIndex / 8) (7 - ((bitIndex % 8 : Nat) : Int)) 0

/-! ## `setTValues` (lines 45-157) -/

/-- The body of the range-check loop (lines 55-56) for one T value. -/
def rangeCheck (t : Int) : Int :=
  let t := if t < 3 then 3 else t
  if t > 11 then 11 else t

/-- The local variables of step 1 of `setTValues`. -/
structure ExpandState where
  rawFrameData : List Nat
  bitPosition : Int
  bytePosition : Nat
  byteData : Nat
deriving DecidableEq

/-- One pass through the body of the inner loop (lines 72-80), without the tests
that leave the loop. -/
def emitBit (bitCount : Int) (s : ExpandState) : ExpandState :=
  let byteData :=
    if bitCount = 0 then (s.byteData ||| (1 <<< s.bitPosition.toNat)) % 256 else s.byteData
  let bitPosition := s.bitPosition - 1
  if bitPosition < 0 then
    { rawFrameData := s.rawFrameData.set s.bytePosition byteData
      byteData := 0
      bitPosition := 7
      bytePosition := s.bytePosition + 1 }
  else
    { s with byteData := byteData, bitPosition := bitPosition }

/-- The inner loop `for (bitCount = 0; bitCount < tValuesIn[tPosition]; bitCount++)`
(lines 71-90), entered at `bitCount` with `fuel` iterations to go.  The two tests of
lines 82 and 87 examine the same value of `bytePosition` and are one test here. -/
def emitBits (tValue : Int) : Nat → Int → ExpandState → ExpandState
  | 0, _, s => s
  | fuel + 1, bitCount, s =>
    if bitCount < tValue then
      let s := emitBit bitCount s
      if s.bytePosition > 73 then s
      else emitBits tValue fuel (bitCount + 1) s
    else s

/-- The outer loop over `tPosition` (lines 69-95). -/
def expandRuns : List Int → ExpandState → ExpandState
  | [], s => s
  | tValue :: rest, s =>
    let s := emitBits tValue tValue.toNat 0 s
    if s.bytePosition > 73 then s
    else expandRuns rest s

/-- Step 1 of `setTValues` (lines 64-98): the contents of `rawFrameData` after the
expansion and the final `if (bytePosition < 74) rawFrameData[bytePosition] = byteData`. -/
def expandTValues (rawFrameData0 : List Nat) (tValuesIn : List Int) : List Nat :=
  let s := expandRuns tValuesIn
    { rawFrameData := rawFrameData0, bitPosition := 7, bytePosition := 0, byteData := 0 }
  if s.bytePosition < 74 then s.rawFrameData.set s.bytePosition s.byteData
  else s.rawFrameData

/-- Step 2 of `setTValues` (lines 119-122): the loop over `counter`, entered with
`fuel` values to go and the running `currentBit`. -/
def extractEfmValues (rawFrameData : List Nat) : Nat → Nat → List Int
  | 0, _ => []
  | fuel + 1, currentBit =>
    getBits rawFrameData currentBit 14 :: extractEfmValues rawFrameData fuel (currentBit + (14 + 3))

/-- Step 3 of `setTValues` (lines 127-138): decode the subcode symbol. -/
def decodeSubcode (efm2numberLUT : EfmTable) (efmValues : List Int) (self : F3Frame) : F3Frame :=
  if efmValues.getD 0 0 = 0x801 then
    { self with subcodeSymbol := 0, isSync0 := true }
  else if efmValues.getD 0 0 = 0x012 then
    { self with subcodeSymbol := 0, isSync1 := true }
  else
    { self with subcodeSymbol := (translateEfm efm2numberLUT (efmValues.getD 0 0) % 256).toNat }

/-- Step 4 of `setTValues` (lines 143-154): the loop over `i`, entered at `i` with
`fuel` iterations to go. -/
def decodeDataSymbols (efm2numberLUT : EfmTable) (efmValues : List Int) :
    Nat → Nat → F3Frame → F3Frame
  | 0, _, self => self
  | fuel + 1, i, self =>
    let value := translateEfm efm2numberLUT (efmValues.getD (i + 1) 0)
    if value ≠ -1 then
      decodeDataSymbols efm2numberLUT efmValues fuel (i + 1)
        { self with
          dataSymbols := self.dataSymbols.set i (value % 256).toNat
          errorSymbols := self.errorSymbols.set i 0 }
    else
      decodeDataSymbols efm2numberLUT efmValues fuel (i + 1)
        { self with
          dataSymbols := self.dataSymbols.set i 0
          errorSymbols := self.errorSymbols.set i 1 }

/-- The method `F3Frame::setTValues`.  `rawFrameData0` is the content of the
uninitialised local array `rawFrameData` on entry; `self` is the frame before the
call and the result is the frame after it. -/
def setTValues (efm2numberLUT : EfmTable) (rawFrameData0 : List Nat) (self : F3Frame)
    (tValuesIn : List Int) : F3Frame :=
  if tValuesIn.isEmpty then self
  else
    let tValuesIn := tValuesIn.map rangeCheck
    let rawFrameData := expandTValues rawFrameData0 tValuesIn
    let efmValues := extractEfmValues rawFrameData 33 (24 + 3)
    let self := decodeSubcode efm2numberLUT efmValues self
    decodeDataSymbols efm2numberLUT efmValues 32 0 self

/-! ## Reference notions used to state the contract -/

/-- Bit `n` of a byte buffer, most significant bit of each byte first: bit
`7 - n mod 8` of byte `n div 8`. -/
def bufBit (rawData : List Nat) (n : Nat) : Bool :=
  (rawData.getD (n / 8) 0).testBit (7 - n % 8)

/-- The unsigned value of the `w` bits `bit off, bit (off + 1), ...`, read one bit at a
time, most significant bit first. -/
def msbValue (bit : Nat → Bool) (off : Nat) : Nat → Nat
  | 0 => 0
  | w + 1 => (if bit off then 2 ^ w else 0) + msbValue bit (off + 1) w

/-- The channel bitstream of a run-length sequence as the specification defines it:
a 1 followed by `T - 1` zeros for each run. -/
def channelBits : List Int → List Bool
  | [] => []
  | t :: rest => (true :: List.replicate (t.toNat - 1) false) ++ channelBits rest

/-- Bit `n` of the channel bitstream (0 beyond its end). -/
def channelBit (ts : List Int) (n : Nat) : Bool :=
  (channelBits ts).getD n false

/-- The `w`-bit field of the channel bitstream at bit offset `off`, MSB first. -/
def channelField (ts : List Int) (off w : Nat) : Nat :=
  msbValue (channelBit ts) off w

/-- Every run length is legal for the channel code: 3..11. -/
def LegalRuns (ts : List Int) : Prop :=
  ∀ t ∈ ts, 3 ≤ t ∧ t ≤ 11

instance (ts : List Int) : Decidable (LegalRuns ts) := by
  unfold LegalRuns; infer_instance

/-- The table a frame is decoded with has pairwise distinct channel codes. -/
def DistinctCodes (efm2numberLUT : EfmTable) : Prop :=
  ∀ v w : Fin 256, efm2numberLUT v = efm2numberLUT w → v = w

/-- The bits the inner loop emits from `bitCount` on during `fuel` iterations: a 1 in
the iteration with `bitCount = 0`, a 0 in every other. -/
def runTail : Int → Nat → List Bool
  | _, 0 => []
  | bitCount, fuel + 1 => decide (bitCount = 0) :: runTail (bitCount + 1) fuel

/-- The representation invariant of step 1: the state holds exactly the bit sequence
`bits`, the complete bytes in `rawFrameData` and the rest in `byteData`. -/
structure Holds (s : ExpandState) (bits : List Bool) : Prop where
  size : s.rawFrameData.length = 75
  bytePos : s.bytePosition = bits.length / 8
  bitPos : s.bitPosition = 7 - ((bits.length % 8 : Nat) : Int)
  bound : bits.length ≤ 592
  stored : ∀ n, n < 8 * (bits.length / 8) → bufBit s.rawFrameData n = bits.getD n false
  pending : ∀ j, j < 8 →
    s.byteData.testBit (7 - j) = bits.getD (8 * (bits.length / 8) + j) false

/-- The data byte and the error flag that step 4 stores for a translation result. -/
def symbolOf (value : Int) : Nat × Nat :=
  if value ≠ -1 then ((value % 256).toNat, 0) else (0, 1)

/-- The `k`-th 14-bit field of the working buffer after step 1 (bits `27 + 17 k` to
`27 + 17 k + 13`, MSB first), read bit by bit. -/
def bufferField (rawFrameData0 : List Nat) (tValuesIn : List Int) (k : Nat) : Nat :=
  msbValue (bufBit (expandTValues rawFrameData0 (tValuesIn.map rangeCheck))) (27 + 17 * k) 14

/-- The number of channel bits step 1 has emitted when it is in state `s`. -/
def bitsEmitted (s : ExpandState) : Int :=
  8 * (s.bytePosition : Int) + (7 - s.bitPosition)

/-- A content of the 75-byte working buffer, as a previous stack frame may have left
it, in which bits 29 and 40 are set. -/
def staleBuffer : List Nat := [0, 0, 0, 4, 0, 128] ++ List.replicate 69 0

/-- A sequence of `setTValues` calls on one frame object, each call with the content
its working buffer starts from. -/
def runCalls (efm2numberLUT : EfmTable) : List (List Nat × List Int) → F3Frame → F3Frame
  | [], self => self
  | (rawFrameData0, tValuesIn) :: rest, self =>
    runCalls efm2numberLUT rest (setTValues efm2numberLUT rawFrameData0 self tValuesIn)

/-- The sync-flag invariant: at most one of `isSync0` and `isSync1` is true, and
whenever either is true `subcodeSymbol` is 0. -/
def SyncInvariant (s : F3Frame) : Prop :=
  ¬ (s.isSync0 = true ∧ s.isSync1 = true) ∧
  ((s.isSync0 = true ∨ s.isSync1 = true) → s.subcodeSymbol = 0)

/-- The size invariant of a frame: 32 data symbols, 32 error flags, every error flag
0 or 1. -/
def SizeInvariant (s : F3Frame) : Prop :=
  s.dataSymbols.length = 32 ∧ s.errorSymbols.length = 32 ∧
  ∀ e ∈ s.errorSymbols, e = 0 ∨ e = 1

/-- The byte index of `rawFrameData` that one pass through the body of the inner loop
writes (line 76), if it writes one. -/
def emitBitWrites (s : ExpandState) : List Nat :=
  if s.bitPosition - 1 < 0 then [s.bytePosition] else []

/-- The byte indices of `rawFrameData` written by the inner loop (lines 71-90), in
order; the control flow is that of `emitBits`. -/
def emitBitsWrites (tValue : Int) : Nat → Int → ExpandState → List Nat
  | 0, _, _ => []
  | fuel + 1, bitCount, s =>
    if bitCount < tValue then
      if (emitBit bitCount s).bytePosition > 73 then emitBitWrites s
      else emitBitWrites s ++ emitBitsWrites tValue fuel (bitCount + 1) (emitBit bitCount s)
    else []

/-- The byte indices of `rawFrameData` written by the outer loop (lines 69-95), in
order; the control flow is that of `expandRuns`. -/
def expandRunsWrites : List Int → ExpandState → List Nat
  | [], _ => []
  | tValue :: rest, s =>
    if (emitBits tValue tValue.toNat 0 s).bytePosition > 73 then
      emitBitsWrites tValue tValue.toNat 0 s
    else
      emitBitsWrites tValue tValue.toNat 0 s ++
        expandRunsWrites rest (emitBits tValue tValue.toNat 0 s)

/-- The byte indices of `rawFrameData` written by step 1 (lines 64-98): those of the
expansion, then that of the final `if (bytePosition < 74) rawFrameData[bytePosition] =
byteData`. -/
def expandTValuesWrites (rawFrameData0 : List Nat) (tValuesIn : List Int) : List Nat :=
  expandRunsWrites tValuesIn
      { rawFrameData := rawFrameData0, bitPosition := 7, bytePosition := 0, byteData := 0 } ++
    (if (expandRuns tValuesIn
        { rawFrameData := rawFrameData0, bitPosition := 7, bytePosition := 0,
          byteData := 0 }).bytePosition < 74
      then [(expandRuns tValuesIn
        { rawFrameData := rawFrameData0, bitPosition := 7, bytePosition := 0,
          byteData := 0 }).bytePosition]
      else [])

/-- The byte indices `getBits` reads (`rawData[byteIndex]`, line 215), in order; the
control flow is that of `getBitsLoop`. -/
def getBitsLoopReads : Nat → Nat → Int → List Nat
  | 0, _, _ => []
  | nBits + 1, byteIndex, bitInByteIndex =>
    byteIndex ::
      (if bitInByteIndex - 1 < 0 then getBitsLoopReads nBits (byteIndex + 1) 7
        else getBitsLoopReads nBits byteIndex (bitInByteIndex - 1))

/-- The byte indices read by `getBits rawData bitIndex width`. -/
def getBitsReads (bitIndex width : Nat) : List Nat :=
  getBitsLoopReads width (bitIndex / 8) (7 - ((bitIndex % 8 : Nat) : Int))

/-- The byte indices of `rawFrameData` read by step 2 (lines 119-122); the control
flow is that of `extractEfmValues`. -/
def extractEfmValuesReads : Nat → Nat → List Nat
  | 0, _ => []
  | fuel + 1, currentBit =>
    getBitsReads currentBit 14 ++ extractEfmValuesReads fuel (currentBit + (14 + 3))

/-- The byte indices of `rawFrameData` that a call of `setTValues` writes. -/
def setTValuesWrites (rawFrameData0 : List Nat) (tValuesIn : List Int) : List Nat :=
  if tValuesIn.isEmpty then []
  else expandTValuesWrites rawFrameData0 (tValuesIn.map rangeCheck)

/-- The byte indices of `rawFrameData` that a call of `setTValues` reads. -/
def setTValuesReads (tValuesIn : List Int) : List Nat :=
  if tValuesIn.isEmpty then []
  else extractEfmValuesReads 33 (24 + 3)

/-! ## Concrete inputs used in the examples -/

/-- A table with pairwise distinct codes used in the examples: source value `v` has
channel code `v`. -/
def exampleLUT : EfmTable := fun v => (v.val : Int)

/-- An all-zero initial content of the 75-byte working buffer. -/
def zeroBuffer : List Nat := List.replicate 75 0

/-- A legal 588-bit frame with runs starting at bits 26, 29 and 40: its subcode field
is 0x801. -/
def sync0Runs : List Int := [11, 11, 4, 3, 11] ++ List.replicate 49 11 ++ [9]

/-- A legal 588-bit frame with runs starting at bits 25, 36, 39 and 42: its subcode
field is 0x012. -/
def sync1Runs : List Int := [11, 11, 3, 11, 3, 3] ++ List.replicate 49 11 ++ [7]

/-- A legal 588-bit frame whose first data field (bits 44..57) is 145. -/
def dataRuns : List Int := [11, 11, 4, 3, 11, 10, 3, 4] ++ List.replicate 48 11 ++ [3]

/-- A sequence of 140 runs of which 100 are out of range; clamped it is 1140 bits
long, far more than the buffer holds. -/
def longRuns : List Int := List.replicate 50 0 ++ List.replicate 50 200 ++ List.replicate 40 11

/-- A sequence whose clamped runs sum to 586 bits, two bits short of a frame; its
subcode field is neither sync pattern. -/
def nominalRuns : List Int := [11, 11, 3, 11, 11] ++ List.replicate 49 11

/-- A legal 588-bit frame with a run starting at bit 30: its subcode field is 1024,
which is neither sync pattern. -/
def plainRuns : List Int := [11, 11, 8] ++ List.replicate 50 11 ++ [8]

/-- The frame `sync0Runs` with other runs in its first 27 bits and another run
starting at bit 585: the 33 fields are the same. -/
def sync0Variant : List Int := [8, 7, 7, 4, 3, 11] ++ List.replicate 49 11 ++ [6, 3]

/-- A frame object that has been used before: `isSync0` is set and the symbols are
not zero. -/
def usedFrame : F3Frame :=
  { isSync0 := true
    isSync1 := false
    subcodeSymbol := 0
    dataSymbols := List.replicate 32 7
    errorSymbols := List.replicate 32 1 }

/-! ## `translateEfm` is a first-match inverse lookup -/

theorem translateEfmLoop_spec (lut : EfmTable) (c : Int) :
    ∀ (fuel lutPos : Nat), lutPos + fuel = 256 →
      (translateEfmLoop lut c fuel lutPos = -1 ∧ ∀ q : Fin 256, lutPos ≤ q.val → lut q ≠ c) ∨
      (∃ p : Fin 256, lutPos ≤ p.val ∧ lut p = c ∧
        (∀ q : Fin 256, lutPos ≤ q.val → q.val < p.val → lut q ≠ c) ∧
        translateEfmLoop lut c fuel lutPos = (p.val : Int)) := by
  intro fuel
  induction fuel with
  | zero =>
    intro lutPos h
    left
    refine ⟨rfl, ?_⟩
    intro q hq
    have := q.isLt
    omega
  | succ fuel ih =>
    intro lutPos h
    have hlt : lutPos < 256 := by omega
    unfold translateEfmLoop
    rw [dif_pos hlt]
    by_cases hc : lut ⟨lutPos, hlt⟩ = c
    · right
      refine ⟨⟨lutPos, hlt⟩, le_refl _, hc, ?_, ?_⟩
      · intro q h1 h2
        simp only at h2
        omega
      · rw [if_pos hc]
    · rw [if_neg hc]
      have hne : ∀ q : Fin 256, lutPos ≤ q.val → ¬ lutPos + 1 ≤ q.val → lut q ≠ c := by
        intro q h1 h2
        have hq : q = ⟨lutPos, hlt⟩ := Fin.ext (by simp only; omega)
        rw [hq]
        exact hc
      rcases ih (lutPos + 1) (by omega) with ⟨h1, h2⟩ | ⟨p, h1, h2, h3, h4⟩
      · left
        refine ⟨h1, ?_⟩
        intro q hq
        by_cases hq1 : lutPos + 1 ≤ q.val
        · exact h2 q hq1
        · exact hne q hq hq1
      · right
        refine ⟨p, by omega, h2, ?_, h4⟩
        intro q hq hqp
        by_cases hq1 : lutPos + 1 ≤ q.val
        · exact h3 q hq1 hqp
        · exact hne q hq hq1

theorem translateEfm_spec (lut : EfmTable) (c : Int) :
    (translateEfm lut c = -1 ∧ ∀ q : Fin 256, lut q ≠ c) ∨
    (∃ p : Fin 256, lut p = c ∧ (∀ q : Fin 256, q.val < p.val → lut q ≠ c) ∧
      translateEfm lut c = (p.val : Int)) := by
  unfold translateEfm
  rcases translateEfmLoop_spec lut c 256 0 rfl with ⟨h1, h2⟩ | ⟨p, _, h2, h3, h4⟩
  · exact Or.inl ⟨h1, fun q => h2 q (Nat.zero_le _)⟩
  · exact Or.inr ⟨p, h2, fun q hq => h3 q (Nat.zero_le _) hq, h4⟩

theorem translateEfm_first (lut : EfmTable) (c : Int) (p : Fin 256) (hp : lut p = c)
    (hmin : ∀ q : Fin 256, q.val < p.val → lut q ≠ c) :
    translateEfm lut c = (p.val : Int) := by
  rcases translateEfm_spec lut c with ⟨_, h2⟩ | ⟨p2, h1, h2, h3⟩
  · exact absurd hp (h2 p)
  · have : p2.val = p.val := by
      rcases Nat.lt_trichotomy p2.val p.val with h | h | h
      · exact absurd h1 (hmin p2 h)
      · exact h
      · exact absurd hp (h2 p h)
    rw [h3, this]

theorem translateEfm_eq_neg_one_iff (lut : EfmTable) (c : Int) :
    translateEfm lut c = -1 ↔ ∀ q : Fin 256, lut q ≠ c := by
  rcases translateEfm_spec lut c with ⟨h1, h2⟩ | ⟨p, h1, _, h3⟩
  · exact ⟨fun _ => h2, fun _ => h1⟩
  · constructor
    · intro h
      rw [h3] at h
      have := p.isLt
      omega
    · intro h
      exact absurd h1 (h p)

theorem translateEfm_range (lut : EfmTable) (c : Int) :
    -1 ≤ translateEfm lut c ∧ translateEfm lut c ≤ 255 := by
  rcases translateEfm_spec lut c with ⟨h1, _⟩ | ⟨p, _, _, h3⟩
  · rw [h1]; omega
  · rw [h3]
    have := p.isLt
    omega

theorem translateEfm_of_distinct (lut : EfmTable) (hd : DistinctCodes lut) (v : Fin 256) :
    translateEfm lut (lut v) = (v.val : Int) := by
  apply translateEfm_first lut (lut v) v rfl
  intro q hq heq
  have := hd q v heq
  rw [this] at hq
  exact Nat.lt_irrefl _ hq

/-! ## `getBits` reads bit by bit, most significant bit first -/

theorem and_one_shiftLeft_ne_zero_iff (x i : Nat) :
    x &&& (1 <<< i) ≠ 0 ↔ x.testBit i = true := by
  rw [Nat.one_shiftLeft]
  constructor
  · intro h
    by_contra hb
    apply h
    apply Nat.eq_of_testBit_eq
    intro j
    rw [Nat.testBit_and, Nat.testBit_two_pow, Nat.zero_testBit]
    by_cases hij : i = j
    · subst hij
      simp only [Bool.not_eq_true] at hb
      rw [hb]
      rfl
    · simp [hij]
  · intro h h0
    have h1 : (x &&& 2 ^ i).testBit i = true := by
      rw [Nat.testBit_and, Nat.testBit_two_pow, h]
      simp
    rw [h0, Nat.zero_testBit] at h1
    exact Bool.noConfusion h1

theorem getBitsLoop_eq (rawData : List Nat) :
    ∀ (n byteIndex k : Nat) (result : Int), k ≤ 7 →
      getBitsLoop rawData n byteIndex (7 - (k : Int)) result =
        result + (msbValue (bufBit rawData) (8 * byteIndex + k) n : Int) := by
  intro n
  induction n with
  | zero =>
    intro byteIndex k result _
    simp [getBitsLoop, msbValue]
  | succ n ih =>
    intro byteIndex k result hk
    have hbit : (rawData.getD byteIndex 0 &&& (1 <<< (7 - (k : Int)).toNat) ≠ 0) ↔
        bufBit rawData (8 * byteIndex + k) = true := by
      rw [and_one_shiftLeft_ne_zero_iff]
      unfold bufBit
      have h1 : (8 * byteIndex + k) / 8 = byteIndex := by omega
      have h2 : 7 - (8 * byteIndex + k) % 8 = (7 - (k : Int)).toNat := by omega
      rw [h1, h2]
    unfold getBitsLoop
    simp only [msbValue, hbit]
    have hres : (if bufBit rawData (8 * byteIndex + k) = true
          then result + ((1 <<< n : Nat) : Int) else result) =
        result + ((if bufBit rawData (8 * byteIndex + k) = true then 2 ^ n else 0 : Nat) : Int) := by
      split
      · rw [Nat.one_shiftLeft]
      · simp
    rw [hres]
    by_cases hk7 : k = 7
    · subst hk7
      have hneg : (7 - ((7 : Nat) : Int)) - 1 < 0 := by omega
      rw [if_pos hneg]
      have h := ih (byteIndex + 1) 0
        (result + ((if bufBit rawData (8 * byteIndex + 7) = true then 2 ^ n else 0 : Nat) : Int))
        (by omega)
      simp only [Nat.cast_zero, sub_zero] at h
      rw [h]
      have hoff : 8 * (byteIndex + 1) + 0 = 8 * byteIndex + 7 + 1 := by omega
      rw [hoff]
      push_cast
      ring
    · have hneg : ¬ (7 - (k : Int)) - 1 < 0 := by omega
      rw [if_neg hneg]
      have hk1 : (7 - (k : Int)) - 1 = 7 - ((k + 1 : Nat) : Int) := by push_cast; ring
      rw [hk1, ih byteIndex (k + 1) _ (by omega)]
      have hoff : 8 * byteIndex + (k + 1) = 8 * byteIndex + k + 1 := by omega
      rw [hoff]
      push_cast
      ring

theorem getBits_eq_msbValue (rawData : List Nat) (bitIndex width : Nat) :
    getBits rawData bitIndex width = (msbValue (bufBit rawData) bitIndex width : Int) := by
  unfold getBits
  rw [getBitsLoop_eq rawData width (bitIndex / 8) (bitIndex % 8) 0 (by omega)]
  have h : 8 * (bitIndex / 8) + bitIndex % 8 = bitIndex := by omega
  rw [h]
  simp

theorem msbValue_lt (bit : Nat → Bool) : ∀ (w off : Nat), msbValue bit off w < 2 ^ w := by
  intro w
  induction w with
  | zero => intro off; simp [msbValue]
  | succ w ih =>
    intro off
    have h := ih (off + 1)
    simp only [msbValue]
    rw [pow_succ]
    split <;> omega

theorem msbValue_congr (bit1 bit2 : Nat → Bool) :
    ∀ (w off : Nat), (∀ n, off ≤ n → n < off + w → bit1 n = bit2 n) →
      msbValue bit1 off w = msbValue bit2 off w := by
  intro w
  induction w with
  | zero => intro off _; rfl
  | succ w ih =>
    intro off h
    simp only [msbValue]
    rw [h off (le_refl _) (by omega), ih (off + 1) (fun n h1 h2 => h n (by omega) (by omega))]

theorem msbValue_eq_sum (bit : Nat → Bool) :
    ∀ (w off : Nat), msbValue bit off w =
      ∑ k in Finset.range w, (if bit (off + k) then 1 else 0) * 2 ^ (w - 1 - k) := by
  intro w
  induction w with
  | zero => intro off; simp [msbValue]
  | succ w ih =>
    intro off
    simp only [msbValue]
    rw [Finset.sum_range_succ', ih (off + 1)]
    simp only [Nat.add_zero, Nat.add_sub_cancel, Nat.sub_zero]
    rw [Nat.add_comm]
    congr 1
    · apply Finset.sum_congr rfl
      intro k hk
      have h1 : off + 1 + k = off + (k + 1) := by omega
      have h2 : w - (k + 1) = w - 1 - k := by omega
      rw [h1, h2]
    · split <;> simp

/-! ## Step 1 writes the channel bitstream into the buffer -/

theorem runTail_pos : ∀ (fuel : Nat) (bc : Int), 0 < bc →
    runTail bc fuel = List.replicate fuel false := by
  intro fuel
  induction fuel with
  | zero => intro bc _; rfl
  | succ fuel ih =>
    intro bc h
    have hne : ¬ bc = 0 := by omega
    simp only [runTail, List.replicate_succ, hne, decide_False]
    rw [ih (bc + 1) (by omega)]

theorem runTail_zero (n : Nat) : runTail 0 (n + 1) = true :: List.replicate n false := by
  simp only [runTail, decide_True]
  rw [runTail_pos n (0 + 1) (by omega)]

theorem getD_append_singleton (bits : List Bool) (b : Bool) (n : Nat) :
    (bits ++ [b]).getD n false = if n = bits.length then b else bits.getD n false := by
  by_cases h : n < bits.length
  · rw [List.getD_append _ _ _ _ h, if_neg (by omega)]
  · rw [List.getD_append_right _ _ _ _ (by omega)]
    by_cases h2 : n = bits.length
    · subst h2; simp
    · rw [if_neg h2, List.getD_eq_default bits false (by omega : bits.length ≤ n)]
      apply List.getD_eq_default
      simp only [List.length_singleton]
      omega

theorem bufBit_set (raw : List Nat) (i v n : Nat) (hi : i < raw.length) :
    bufBit (raw.set i v) n = if n / 8 = i then v.testBit (7 - n % 8) else bufBit raw n := by
  unfold bufBit
  rw [List.getD_eq_getElem?_getD, List.getElem?_set]
  by_cases h : n / 8 = i
  · rw [if_pos h.symm, if_pos hi, if_pos h]
    rfl
  · rw [if_neg (fun h2 => h h2.symm), if_neg h, List.getD_eq_getElem?_getD]

theorem orBit_testBit (byteData r j : Nat) (hr : r < 8) (hj : j < 8) :
    ((byteData ||| (1 <<< (7 - r))) % 256).testBit (7 - j) =
      (byteData.testBit (7 - j) || decide (j = r)) := by
  rw [show (256 : Nat) = 2 ^ 8 from rfl, Nat.testBit_mod_two_pow, Nat.testBit_or,
    Nat.one_shiftLeft, Nat.testBit_two_pow]
  have h1 : decide (7 - j < 8) = true := by simp; omega
  have h2 : decide (7 - r = 7 - j) = decide (j = r) := by
    by_cases h : j = r
    · subst h; simp
    · have : ¬ (7 - r = 7 - j) := by omega
      simp [h, this]
  rw [h1, h2]
  simp

theorem Holds.emitBit_holds {s : ExpandState} {bits : List Bool} (h : Holds s bits)
    (hlt : bits.length < 592) (bc : Int) :
    Holds (emitBit bc s) (bits ++ [decide (bc = 0)]) := by
  obtain ⟨hsize, hbyte, hbit, _, hstored, hpending⟩ := h
  have hlen : (bits ++ [decide (bc = 0)]).length = bits.length + 1 := by simp
  have hbp : s.bitPosition.toNat = 7 - bits.length % 8 := by omega
  have hA : ∀ j, j < 8 →
      (if bc = 0 then (s.byteData ||| (1 <<< s.bitPosition.toNat)) % 256
        else s.byteData).testBit (7 - j) =
      (bits ++ [decide (bc = 0)]).getD (8 * (bits.length / 8) + j) false := by
    intro j hj
    rw [getD_append_singleton]
    have hp := hpending j hj
    by_cases hjr : j = bits.length % 8
    · have hidx : 8 * (bits.length / 8) + j = bits.length := by omega
      rw [if_pos hidx]
      rw [hidx, List.getD_eq_default _ _ (le_refl _)] at hp
      by_cases hbc : bc = 0
      · rw [if_pos hbc, hbp, orBit_testBit _ _ _ (by omega) hj, hp]
        simp [hjr, hbc]
      · rw [if_neg hbc, hp]
        simp [hbc]
    · have hidx : ¬ 8 * (bits.length / 8) + j = bits.length := by omega
      rw [if_neg hidx, ← hp]
      by_cases hbc : bc = 0
      · rw [if_pos hbc, hbp, orBit_testBit _ _ _ (by omega) hj]
        simp [hjr]
      · rw [if_neg hbc]
  unfold emitBit
  by_cases hwrap : s.bitPosition - 1 < 0
  · have hr : bits.length % 8 = 7 := by omega
    simp only [hwrap, if_true]
    refine ⟨?_, ?_, ?_, ?_, ?_, ?_⟩
    · simp [hsize]
    · simp only [hlen]; omega
    · simp only [hlen]; omega
    · simp only [hlen]; omega
    · intro n hn
      rw [hlen] at hn
      rw [bufBit_set _ _ _ _ (by omega)]
      by_cases hq : n / 8 = s.bytePosition
      · rw [if_pos hq, hA (n % 8) (by omega)]
        congr 1
        omega
      · rw [if_neg hq, hstored n (by omega), getD_append_singleton, if_neg (by omega)]
    · intro j _
      rw [Nat.zero_testBit, List.getD_eq_default]
      rw [hlen]
      omega
  · simp only [hwrap, if_false]
    refine ⟨hsize, ?_, ?_, ?_, ?_, ?_⟩
    · simp only [hlen]; omega
    · simp only [hlen]; omega
    · simp only [hlen]; omega
    · intro n hn
      rw [hlen] at hn
      rw [hstored n (by omega), getD_append_singleton, if_neg (by omega)]
    · intro j hj
      rw [hlen]
      have : (bits.length + 1) / 8 = bits.length / 8 := by omega
      rw [this]
      exact hA j hj

theorem Holds.emitBits_holds (tValue : Int) :
    ∀ (fuel : Nat) (bc : Int) (s : ExpandState) (bits : List Bool),
      Holds s bits → bits.length < 592 → bc + (fuel : Int) = tValue →
      Holds (emitBits tValue fuel bc s) ((bits ++ runTail bc fuel).take 592) := by
  intro fuel
  induction fuel with
  | zero =>
    intro bc s bits h hlt _
    simp only [emitBits, runTail, List.append_nil]
    rw [List.take_of_length_le (by omega)]
    exact h
  | succ fuel ih =>
    intro bc s bits h hlt hbc
    have hlt2 : bc < tValue := by push_cast at hbc; omega
    have h1 := h.emitBit_holds hlt bc
    have happ : bits ++ runTail bc (fuel + 1) =
        (bits ++ [decide (bc = 0)]) ++ runTail (bc + 1) fuel := by
      simp [runTail]
    rw [happ]
    unfold emitBits
    simp only [hlt2, if_true]
    by_cases hstop : (emitBit bc s).bytePosition > 73
    · rw [if_pos hstop]
      have hl : (bits ++ [decide (bc = 0)]).length = 592 := by
        have h2 := h1.bytePos
        have h3 := h1.bound
        omega
      rw [List.take_left' hl]
      exact h1
    · rw [if_neg hstop]
      apply ih _ _ _ h1 _ (by push_cast at hbc ⊢; omega)
      have h2 := h1.bytePos
      omega

theorem channelBits_cons (t : Int) (rest : List Int) (ht : 1 ≤ t) :
    channelBits (t :: rest) = runTail 0 t.toNat ++ channelBits rest := by
  obtain ⟨n, hn⟩ : ∃ n, t.toNat = n + 1 := ⟨t.toNat - 1, by omega⟩
  simp only [channelBits]
  rw [hn, runTail_zero]
  simp

theorem Holds.expandRuns_holds :
    ∀ (ts : List Int) (s : ExpandState) (bits : List Bool), LegalRuns ts →
      Holds s bits → bits.length < 592 →
      Holds (expandRuns ts s) ((bits ++ channelBits ts).take 592) := by
  intro ts
  induction ts with
  | nil =>
    intro s bits _ h hlt
    simp only [expandRuns, channelBits, List.append_nil]
    rw [List.take_of_length_le (by omega)]
    exact h
  | cons t rest ih =>
    intro s bits hl h hlt
    have ht := hl t (List.mem_cons_self _ _)
    have hrest : LegalRuns rest := fun x hx => hl x (List.mem_cons_of_mem _ hx)
    have h1 := Holds.emitBits_holds t t.toNat 0 s bits h hlt (by omega)
    rw [channelBits_cons t rest (by omega), ← List.append_assoc]
    unfold expandRuns
    simp only []
    have hmin : ((bits ++ runTail 0 t.toNat).take 592).length =
        min 592 (bits ++ runTail 0 t.toNat).length := List.length_take _ _
    by_cases hstop : (emitBits t t.toNat 0 s).bytePosition > 73
    · rw [if_pos hstop]
      have h2 := h1.bytePos
      have h3 := h1.bound
      rw [List.take_append_of_le_length (by omega)]
      exact h1
    · rw [if_neg hstop]
      have h2 := h1.bytePos
      have hfull : (bits ++ runTail 0 t.toNat).take 592 = bits ++ runTail 0 t.toNat := by
        apply List.take_of_length_le
        omega
      rw [hfull] at h1 h2
      exact ih _ _ hrest h1 (by omega)

theorem getD_take_of_lt (l : List Bool) (k n : Nat) (h : n < k) :
    (l.take k).getD n false = l.getD n false := by
  rw [List.getD_eq_getElem?_getD, List.getD_eq_getElem?_getD, List.getElem?_take_of_lt h]

/-- After step 1 the buffer holds the channel bitstream: every bit below the 592-bit
ceiling that lies in a byte the expansion or the final assignment wrote is the
bit of the run-length sequence. -/
theorem expandTValues_bit (raw0 : List Nat) (ts : List Int) (hraw : raw0.length = 75)
    (hl : LegalRuns ts) (n : Nat) (hn : n < 592)
    (hn2 : n < 8 * ((channelBits ts).length / 8 + 1)) :
    bufBit (expandTValues raw0 ts) n = channelBit ts n := by
  have h0 : Holds
      { rawFrameData := raw0, bitPosition := 7, bytePosition := 0, byteData := 0 } [] := by
    refine ⟨hraw, rfl, rfl, by simp, ?_, ?_⟩
    · intro n hn
      simp at hn
    · intro j _
      simp
  have h := Holds.expandRuns_holds ts _ [] hl h0 (by simp)
  rw [List.nil_append] at h
  have hmin : ((channelBits ts).take 592).length = min 592 (channelBits ts).length :=
    List.length_take _ _
  obtain ⟨hsize, hbyte, _, _, hstored, hpending⟩ := h
  unfold expandTValues channelBit
  simp only []
  rw [← getD_take_of_lt _ 592 n hn]
  by_cases hb : (expandRuns ts
      { rawFrameData := raw0, bitPosition := 7, bytePosition := 0, byteData := 0 }).bytePosition < 74
  · rw [if_pos hb, bufBit_set _ _ _ _ (by omega)]
    by_cases hq : n / 8 = (expandRuns ts
      { rawFrameData := raw0, bitPosition := 7, bytePosition := 0, byteData := 0 }).bytePosition
    · rw [if_pos hq, hpending (n % 8) (by omega)]
      congr 1
      omega
    · rw [if_neg hq]
      apply hstored
      omega
  · rw [if_neg hb]
    apply hstored
    omega

theorem channelBits_length : ∀ (ts : List Int), LegalRuns ts →
    ((channelBits ts).length : Int) = ts.sum := by
  intro ts
  induction ts with
  | nil => intro _; rfl
  | cons t rest ih =>
    intro hl
    have ht := hl t (List.mem_cons_self _ _)
    have hrest : LegalRuns rest := fun x hx => hl x (List.mem_cons_of_mem _ hx)
    have := ih hrest
    simp only [channelBits, List.length_append, List.length_cons, List.length_replicate,
      List.sum_cons]
    omega

/-! ## Steps 2 to 4: what `setTValues` stores in the frame -/

theorem extractEfmValues_getD (raw : List Nat) :
    ∀ (fuel currentBit k : Nat), k < fuel →
      (extractEfmValues raw fuel currentBit).getD k 0 = getBits raw (currentBit + 17 * k) 14 := by
  intro fuel
  induction fuel with
  | zero => intro _ k h; omega
  | succ fuel ih =>
    intro cb k hk
    cases k with
    | zero => simp [extractEfmValues]
    | succ k =>
      simp only [extractEfmValues, List.getD_cons_succ]
      rw [ih (cb + (14 + 3)) k (by omega)]
      congr 1
      omega

theorem decodeDataSymbols_succ (lut : EfmTable) (ev : List Int) (fuel i : Nat) (self : F3Frame) :
    decodeDataSymbols lut ev (fuel + 1) i self =
      decodeDataSymbols lut ev fuel (i + 1)
        { self with
          dataSymbols := self.dataSymbols.set i (symbolOf (translateEfm lut (ev.getD (i + 1) 0))).1
          errorSymbols :=
            self.errorSymbols.set i (symbolOf (translateEfm lut (ev.getD (i + 1) 0))).2 } := by
  unfold symbolOf
  rw [decodeDataSymbols]
  split <;> rfl

theorem decodeDataSymbols_fields (lut : EfmTable) (ev : List Int) :
    ∀ (fuel i : Nat) (self : F3Frame),
      (decodeDataSymbols lut ev fuel i self).isSync0 = self.isSync0 ∧
      (decodeDataSymbols lut ev fuel i self).isSync1 = self.isSync1 ∧
      (decodeDataSymbols lut ev fuel i self).subcodeSymbol = self.subcodeSymbol := by
  intro fuel
  induction fuel with
  | zero => intro i self; simp [decodeDataSymbols]
  | succ fuel ih =>
    intro i self
    rw [decodeDataSymbols_succ]
    exact ih _ _

theorem decodeDataSymbols_symbols (lut : EfmTable) (ev : List Int) :
    ∀ (fuel i : Nat) (self : F3Frame) (j : Nat),
      (decodeDataSymbols lut ev fuel i self).dataSymbols[j]? =
        (if i ≤ j ∧ j < i + fuel ∧ j < self.dataSymbols.length
          then some (symbolOf (translateEfm lut (ev.getD (j + 1) 0))).1
          else self.dataSymbols[j]?) ∧
      (decodeDataSymbols lut ev fuel i self).errorSymbols[j]? =
        (if i ≤ j ∧ j < i + fuel ∧ j < self.errorSymbols.length
          then some (symbolOf (translateEfm lut (ev.getD (j + 1) 0))).2
          else self.errorSymbols[j]?) := by
  intro fuel
  induction fuel with
  | zero =>
    intro i self j
    have h : ¬ (i ≤ j ∧ j < i + 0 ∧ j < self.dataSymbols.length) := by omega
    have h2 : ¬ (i ≤ j ∧ j < i + 0 ∧ j < self.errorSymbols.length) := by omega
    simp only [decodeDataSymbols, if_neg h, if_neg h2, and_self]
  | succ fuel ih =>
    intro i self j
    rw [decodeDataSymbols_succ]
    obtain ⟨h1, h2⟩ := ih (i + 1) _ j
    rw [h1, h2]
    simp only [List.length_set, List.getElem?_set]
    constructor
    · by_cases hij : i = j
      · subst hij
        by_cases hlen : i < self.dataSymbols.length
        · rw [if_neg (by omega), if_pos rfl, if_pos hlen, if_pos ⟨le_refl _, by omega, hlen⟩]
        · rw [if_neg (by omega), if_pos rfl, if_neg hlen, if_neg (by omega)]
          exact (List.getElem?_eq_none (by omega)).symm
      · rw [if_neg hij]
        by_cases hc : i + 1 ≤ j ∧ j < i + 1 + fuel ∧ j < self.dataSymbols.length
        · rw [if_pos hc, if_pos ⟨by omega, by omega, hc.2.2⟩]
        · rw [if_neg hc, if_neg (by omega)]
    · by_cases hij : i = j
      · subst hij
        by_cases hlen : i < self.errorSymbols.length
        · rw [if_neg (by omega), if_pos rfl, if_pos hlen, if_pos ⟨le_refl _, by omega, hlen⟩]
        · rw [if_neg (by omega), if_pos rfl, if_neg hlen, if_neg (by omega)]
          exact (List.getElem?_eq_none (by omega)).symm
      · rw [if_neg hij]
        by_cases hc : i + 1 ≤ j ∧ j < i + 1 + fuel ∧ j < self.errorSymbols.length
        · rw [if_pos hc, if_pos ⟨by omega, by omega, hc.2.2⟩]
        · rw [if_neg hc, if_neg (by omega)]

/-- The values step 2 extracts for a given buffer. -/
theorem setTValues_eq (lut : EfmTable) (raw0 : List Nat) (self : F3Frame) (ts : List Int)
    (hne : ts ≠ []) :
    setTValues lut raw0 self ts =
      decodeDataSymbols lut
        (extractEfmValues (expandTValues raw0 (ts.map rangeCheck)) 33 27) 32 0
        (decodeSubcode lut
          (extractEfmValues (expandTValues raw0 (ts.map rangeCheck)) 33 27) self) := by
  unfold setTValues
  have h : ts.isEmpty = false := by
    cases ts with
    | nil => exact absurd rfl hne
    | cons _ _ => rfl
  simp [h]

theorem rangeCheck_legal (t : Int) : 3 ≤ rangeCheck t ∧ rangeCheck t ≤ 11 := by
  simp only [rangeCheck]
  split_ifs <;> omega

theorem rangeCheck_of_legal (t : Int) (h : 3 ≤ t ∧ t ≤ 11) : rangeCheck t = t := by
  simp only [rangeCheck]
  split_ifs <;> omega

theorem map_rangeCheck_legal (ts : List Int) : LegalRuns (ts.map rangeCheck) := by
  intro t ht
  obtain ⟨x, _, hx⟩ := List.mem_map.mp ht
  rw [← hx]
  exact rangeCheck_legal x

theorem map_rangeCheck_of_legal (ts : List Int) (h : LegalRuns ts) : ts.map rangeCheck = ts := by
  induction ts with
  | nil => rfl
  | cons t rest ih =>
    rw [List.map_cons, rangeCheck_of_legal t (h t (List.mem_cons_self _ _)),
      ih (fun x hx => h x (List.mem_cons_of_mem _ hx))]

theorem efmValues_getD (raw0 : List Nat) (ts : List Int) (k : Nat) (hk : k < 33) :
    (extractEfmValues (expandTValues raw0 (ts.map rangeCheck)) 33 27).getD k 0 =
      (bufferField raw0 ts k : Int) := by
  rw [extractEfmValues_getD _ 33 27 k hk, getBits_eq_msbValue]
  rfl

theorem bufferField_lt (raw0 : List Nat) (ts : List Int) (k : Nat) :
    bufferField raw0 ts k < 2 ^ 14 :=
  msbValue_lt _ _ _

theorem bufferField_eq_channelField (raw0 : List Nat) (ts : List Int) (k : Nat)
    (hraw : raw0.length = 75) (hl : LegalRuns ts) (hk : k < 33)
    (hS : 27 + 17 * k + 14 ≤ 8 * ((channelBits ts).length / 8 + 1)) :
    bufferField raw0 ts k = channelField ts (27 + 17 * k) 14 := by
  unfold bufferField channelField
  rw [map_rangeCheck_of_legal ts hl]
  apply msbValue_congr
  intro n _ h2
  exact expandTValues_bit raw0 ts hraw hl n (by omega) (by omega)

theorem decodeSubcode_symbols (lut : EfmTable) (ev : List Int) (self : F3Frame) :
    (decodeSubcode lut ev self).dataSymbols = self.dataSymbols ∧
    (decodeSubcode lut ev self).errorSymbols = self.errorSymbols := by
  unfold decodeSubcode
  split_ifs <;> exact ⟨rfl, rfl⟩

theorem setTValues_isSync0 (lut : EfmTable) (raw0 : List Nat) (self : F3Frame)
    (ts : List Int) (hne : ts ≠ []) :
    (setTValues lut raw0 self ts).isSync0 =
      (self.isSync0 || decide (bufferField raw0 ts 0 = 0x801)) := by
  rw [setTValues_eq lut raw0 self ts hne, (decodeDataSymbols_fields lut _ 32 0 _).1]
  unfold decodeSubcode
  rw [efmValues_getD raw0 ts 0 (by omega)]
  by_cases h1 : bufferField raw0 ts 0 = 0x801
  · have h1i : (bufferField raw0 ts 0 : Int) = 0x801 := by exact_mod_cast h1
    rw [if_pos h1i]
    simp [h1]
  · have h1i : ¬ (bufferField raw0 ts 0 : Int) = 0x801 := by exact_mod_cast h1
    rw [if_neg h1i]
    split_ifs <;> simp [h1]

theorem setTValues_isSync1 (lut : EfmTable) (raw0 : List Nat) (self : F3Frame)
    (ts : List Int) (hne : ts ≠ []) :
    (setTValues lut raw0 self ts).isSync1 =
      (self.isSync1 || decide (bufferField raw0 ts 0 = 0x012)) := by
  rw [setTValues_eq lut raw0 self ts hne, (decodeDataSymbols_fields lut _ 32 0 _).2.1]
  unfold decodeSubcode
  rw [efmValues_getD raw0 ts 0 (by omega)]
  by_cases h1 : bufferField raw0 ts 0 = 0x801
  · have h1i : (bufferField raw0 ts 0 : Int) = 0x801 := by exact_mod_cast h1
    rw [if_pos h1i]
    simp [h1]
  · have h1i : ¬ (bufferField raw0 ts 0 : Int) = 0x801 := by exact_mod_cast h1
    rw [if_neg h1i]
    by_cases h2 : bufferField raw0 ts 0 = 0x012
    · have h2i : (bufferField raw0 ts 0 : Int) = 0x012 := by exact_mod_cast h2
      rw [if_pos h2i]
      simp [h2]
    · have h2i : ¬ (bufferField raw0 ts 0 : Int) = 0x012 := by exact_mod_cast h2
      rw [if_neg h2i]
      simp [h2]

theorem setTValues_subcodeSymbol (lut : EfmTable) (raw0 : List Nat) (self : F3Frame)
    (ts : List Int) (hne : ts ≠ []) :
    (setTValues lut raw0 self ts).subcodeSymbol =
      if bufferField raw0 ts 0 = 0x801 ∨ bufferField raw0 ts 0 = 0x012 then 0
      else (translateEfm lut (bufferField raw0 ts 0 : Int) % 256).toNat := by
  rw [setTValues_eq lut raw0 self ts hne, (decodeDataSymbols_fields lut _ 32 0 _).2.2]
  unfold decodeSubcode
  rw [efmValues_getD raw0 ts 0 (by omega)]
  by_cases h1 : bufferField raw0 ts 0 = 0x801
  · have h1i : (bufferField raw0 ts 0 : Int) = 0x801 := by exact_mod_cast h1
    rw [if_pos h1i, if_pos (Or.inl h1)]
  · have h1i : ¬ (bufferField raw0 ts 0 : Int) = 0x801 := by exact_mod_cast h1
    rw [if_neg h1i]
    by_cases h2 : bufferField raw0 ts 0 = 0x012
    · have h2i : (bufferField raw0 ts 0 : Int) = 0x012 := by exact_mod_cast h2
      rw [if_pos h2i, if_pos (Or.inr h2)]
    · have h2i : ¬ (bufferField raw0 ts 0 : Int) = 0x012 := by exact_mod_cast h2
      rw [if_neg h2i, if_neg (not_or.mpr ⟨h1, h2⟩)]

theorem setTValues_symbols (lut : EfmTable) (raw0 : List Nat) (self : F3Frame)
    (ts : List Int) (hne : ts ≠ []) (j : Nat) (hj : j < 32) :
    (self.dataSymbols.length = 32 →
      (setTValues lut raw0 self ts).dataSymbols[j]? =
        some (symbolOf (translateEfm lut (bufferField raw0 ts (j + 1) : Int))).1) ∧
    (self.errorSymbols.length = 32 →
      (setTValues lut raw0 self ts).errorSymbols[j]? =
        some (symbolOf (translateEfm lut (bufferField raw0 ts (j + 1) : Int))).2) := by
  rw [setTValues_eq lut raw0 self ts hne]
  obtain ⟨h1, h2⟩ := decodeDataSymbols_symbols lut
    (extractEfmValues (expandTValues raw0 (ts.map rangeCheck)) 33 27) 32 0
    (decodeSubcode lut (extractEfmValues (expandTValues raw0 (ts.map rangeCheck)) 33 27) self) j
  obtain ⟨h3, h4⟩ := decodeSubcode_symbols lut
    (extractEfmValues (expandTValues raw0 (ts.map rangeCheck)) 33 27) self
  rw [h1, h2, h3, h4, efmValues_getD raw0 ts (j + 1) (by omega)]
  constructor
  · intro hlen
    rw [if_pos ⟨by omega, by omega, by omega⟩]
  · intro hlen
    rw [if_pos ⟨by omega, by omega, by omega⟩]

/-! ## The contract of `F3Frame` -/

theorem exampleLUT_distinct : DistinctCodes exampleLUT := by
  intro v w h
  unfold exampleLUT at h
  exact Fin.ext (by exact_mod_cast h)

theorem ne_nil_of_sum (ts : List Int) (h : ts.sum = 588) : ts ≠ [] := by
  intro h0
  rw [h0] at h
  simp at h

theorem bufferField_of_frame (raw0 : List Nat) (ts : List Int) (k : Nat)
    (hraw : raw0.length = 75) (hlegal : LegalRuns ts) (hsum : ts.sum = 588) (hk : k < 33) :
    bufferField raw0 ts k = channelField ts (27 + 17 * k) 14 := by
  have hlen : (channelBits ts).length = 588 := by
    have := channelBits_length ts hlegal
    omega
  apply bufferField_eq_channelField raw0 ts k hraw hlegal hk
  rw [hlen]
  omega

/-- Claim C1 (sync-0 detection): for every run-length sequence whose values all lie in
3..11, whose runs sum to 588 channel bits and whose channel bitstream holds 0x801 in
the subcode field (bits 27..40, MSB first), `setTValues` on a newly constructed frame
leaves `isSync0 = true`, `isSync1 = false` and `subcodeSymbol = 0`, whatever the
translation table and the initial content of the working buffer. -/
theorem setTValues_sync0_detection (lut : EfmTable) (raw0 : List Nat) (ts : List Int)
    (hraw : raw0.length = 75) (hlegal : LegalRuns ts) (hsum : ts.sum = 588)
    (hfield : channelField ts 27 14 = 0x801) :
    (setTValues lut raw0 F3Frame.F3Frame ts).isSync0 = true ∧
    (setTValues lut raw0 F3Frame.F3Frame ts).isSync1 = false ∧
    (setTValues lut raw0 F3Frame.F3Frame ts).subcodeSymbol = 0 := by
  have hne := ne_nil_of_sum ts hsum
  have hf : bufferField raw0 ts 0 = 0x801 := by
    rw [bufferField_of_frame raw0 ts 0 hraw hlegal hsum (by omega)]
    exact hfield
  rw [setTValues_isSync0 lut raw0 _ ts hne, setTValues_isSync1 lut raw0 _ ts hne,
    setTValues_subcodeSymbol lut raw0 _ ts hne, hf]
  refine ⟨?_, ?_, ?_⟩
  · simp
  · simp [F3Frame.F3Frame]
  · simp

theorem setTValues_sync0_detection_witness :
    zeroBuffer.length = 75 ∧ LegalRuns sync0Runs ∧ sync0Runs.sum = 588 ∧
    channelField sync0Runs 27 14 = 0x801 ∧
    (setTValues exampleLUT zeroBuffer F3Frame.F3Frame sync0Runs).isSync0 = true ∧
    (setTValues exampleLUT zeroBuffer F3Frame.F3Frame sync0Runs).isSync1 = false ∧
    (setTValues exampleLUT zeroBuffer F3Frame.F3Frame sync0Runs).subcodeSymbol = 0 :=
  ⟨by decide, by decide, by decide, by decide,
    setTValues_sync0_detection exampleLUT zeroBuffer sync0Runs (by decide) (by decide) (by decide)
      (by decide)⟩

/-- Claim C2 (sync-1 detection): for every run-length sequence whose values all lie in
3..11, whose runs sum to 588 channel bits and whose channel bitstream holds 0x012 in
the subcode field (bits 27..40, MSB first), `setTValues` on a newly constructed frame
leaves `isSync1 = true`, `isSync0 = false` and `subcodeSymbol = 0`. -/
theorem setTValues_sync1_detection (lut : EfmTable) (raw0 : List Nat) (ts : List Int)
    (hraw : raw0.length = 75) (hlegal : LegalRuns ts) (hsum : ts.sum = 588)
    (hfield : channelField ts 27 14 = 0x012) :
    (setTValues lut raw0 F3Frame.F3Frame ts).isSync1 = true ∧
    (setTValues lut raw0 F3Frame.F3Frame ts).isSync0 = false ∧
    (setTValues lut raw0 F3Frame.F3Frame ts).subcodeSymbol = 0 := by
  have hne := ne_nil_of_sum ts hsum
  have hf : bufferField raw0 ts 0 = 0x012 := by
    rw [bufferField_of_frame raw0 ts 0 hraw hlegal hsum (by omega)]
    exact hfield
  rw [setTValues_isSync0 lut raw0 _ ts hne, setTValues_isSync1 lut raw0 _ ts hne,
    setTValues_subcodeSymbol lut raw0 _ ts hne, hf]
  refine ⟨?_, ?_, ?_⟩
  · simp
  · simp [F3Frame.F3Frame]
  · simp

theorem setTValues_sync1_detection_witness :
    zeroBuffer.length = 75 ∧ LegalRuns sync1Runs ∧ sync1Runs.sum = 588 ∧
    channelField sync1Runs 27 14 = 0x012 ∧
    (setTValues exampleLUT zeroBuffer F3Frame.F3Frame sync1Runs).isSync1 = true ∧
    (setTValues exampleLUT zeroBuffer F3Frame.F3Frame sync1Runs).isSync0 = false ∧
    (setTValues exampleLUT zeroBuffer F3Frame.F3Frame sync1Runs).subcodeSymbol = 0 :=
  ⟨by decide, by decide, by decide, by decide,
    setTValues_sync1_detection exampleLUT zeroBuffer sync1Runs (by decide) (by decide) (by decide)
      (by decide)⟩

theorem symbolOf_of_index (p : Fin 256) : symbolOf (p.val : Int) = (p.val, 0) := by
  have := p.isLt
  unfold symbolOf
  rw [if_pos (by omega)]
  congr 1
  omega

/-- Claim C3 (round trip through the table): for every table with pairwise distinct
channel codes, every source value `v` in 0..255 and every data position `i` in 0..31,
if a legal run-length sequence (values in 3..11, summing to 588 bits) has a channel
bitstream whose 14-bit field at bit offset `27 + 17 (i + 1)` equals `table[v]`, then
after `setTValues` on a newly constructed frame `dataSymbols[i]` is the byte `v` and
`errorSymbols[i]` is 0. -/
theorem setTValues_round_trip (lut : EfmTable) (hd : DistinctCodes lut) (v : Fin 256)
    (i : Nat) (hi : i < 32) (raw0 : List Nat) (hraw : raw0.length = 75) (ts : List Int)
    (hlegal : LegalRuns ts) (hsum : ts.sum = 588)
    (hfield : (channelField ts (27 + 17 * (i + 1)) 14 : Int) = lut v) :
    (setTValues lut raw0 F3Frame.F3Frame ts).dataSymbols[i]? = some v.val ∧
    (setTValues lut raw0 F3Frame.F3Frame ts).errorSymbols[i]? = some 0 := by
  have hne := ne_nil_of_sum ts hsum
  obtain ⟨h1, h2⟩ := setTValues_symbols lut raw0 F3Frame.F3Frame ts hne i hi
  rw [h1 (by simp [F3Frame.F3Frame]), h2 (by simp [F3Frame.F3Frame]),
    bufferField_of_frame raw0 ts (i + 1) hraw hlegal hsum (by omega), hfield,
    translateEfm_of_distinct lut hd v, symbolOf_of_index]
  exact ⟨rfl, rfl⟩

theorem setTValues_round_trip_witness :
    DistinctCodes exampleLUT ∧ 0 < 32 ∧ zeroBuffer.length = 75 ∧ LegalRuns dataRuns ∧
    dataRuns.sum = 588 ∧
    (channelField dataRuns (27 + 17 * (0 + 1)) 14 : Int) = exampleLUT ⟨145, by decide⟩ ∧
    (setTValues exampleLUT zeroBuffer F3Frame.F3Frame dataRuns).dataSymbols[0]? = some 145 ∧
    (setTValues exampleLUT zeroBuffer F3Frame.F3Frame dataRuns).errorSymbols[0]? = some 0 :=
  ⟨exampleLUT_distinct, by decide, by decide, by decide, by decide, by decide,
    setTValues_round_trip exampleLUT exampleLUT_distinct ⟨145, by decide⟩ 0 (by decide)
      zeroBuffer (by decide) dataRuns (by decide) (by decide) (by decide)⟩

/-- Claim C4 (per-symbol error flagging): for every non-empty run-length sequence and
every data index `i` in 0..31, after `setTValues` (on a frame with its 32 data and 32
error symbols) `errorSymbols[i]` is 1 exactly when the `(i+1)`-th extracted 14-bit field
(bit offset `27 + 17 (i + 1)` of the working buffer) equals no entry of the translation
table, and then `dataSymbols[i]` is 0; otherwise `errorSymbols[i]` is 0 and
`dataSymbols[i]` is the translated value, the first table position holding the field.
The outcome at index `i` is a function of field `i + 1` alone. -/
theorem setTValues_error_flagging (lut : EfmTable) (raw0 : List Nat) (self : F3Frame)
    (ts : List Int) (hne : ts ≠ []) (hdata : self.dataSymbols.length = 32)
    (herr : self.errorSymbols.length = 32) (i : Nat) (hi : i < 32) :
    ((setTValues lut raw0 self ts).errorSymbols[i]? = some 1 ↔
      ∀ p : Fin 256, lut p ≠ (bufferField raw0 ts (i + 1) : Int)) ∧
    ((∀ p : Fin 256, lut p ≠ (bufferField raw0 ts (i + 1) : Int)) →
      (setTValues lut raw0 self ts).dataSymbols[i]? = some 0) ∧
    ((∃ p : Fin 256, lut p = (bufferField raw0 ts (i + 1) : Int)) →
      (setTValues lut raw0 self ts).errorSymbols[i]? = some 0 ∧
      ∃ p : Fin 256, lut p = (bufferField raw0 ts (i + 1) : Int) ∧
        (∀ q : Fin 256, q.val < p.val → lut q ≠ (bufferField raw0 ts (i + 1) : Int)) ∧
        (setTValues lut raw0 self ts).dataSymbols[i]? = some p.val) := by
  obtain ⟨h1, h2⟩ := setTValues_symbols lut raw0 self ts hne i hi
  rw [h1 hdata, h2 herr]
  rcases translateEfm_spec lut (bufferField raw0 ts (i + 1) : Int) with
    ⟨ht, hnone⟩ | ⟨p, hp, hmin, ht⟩
  · have hs : symbolOf (translateEfm lut (bufferField raw0 ts (i + 1) : Int)) = (0, 1) := by
      rw [ht]
      rfl
    rw [hs]
    refine ⟨⟨fun _ => hnone, fun _ => rfl⟩, fun _ => rfl, ?_⟩
    rintro ⟨p, hp⟩
    exact absurd hp (hnone p)
  · rw [ht, symbolOf_of_index]
    refine ⟨⟨?_, ?_⟩, ?_, ?_⟩
    · intro h
      simp at h
    · intro h
      exact absurd hp (h p)
    · intro h
      exact absurd hp (h p)
    · intro _
      exact ⟨rfl, p, hp, hmin, rfl⟩

theorem exampleLUT_ne_of_ge (c : Int) (hc : 256 ≤ c) : ∀ p : Fin 256, exampleLUT p ≠ c := by
  intro p h
  have := p.isLt
  unfold exampleLUT at h
  omega

theorem dataRuns_field3 : (bufferField zeroBuffer dataRuns (2 + 1) : Int) = 4098 := by
  rw [bufferField_of_frame zeroBuffer dataRuns (2 + 1) (by decide) (by decide) (by decide)
    (by decide)]
  decide

theorem setTValues_error_flagging_witness :
    ([3] : List Int) ≠ [] ∧ dataRuns ≠ [] ∧ F3Frame.F3Frame.dataSymbols.length = 32 ∧
    F3Frame.F3Frame.errorSymbols.length = 32 ∧ 0 < 32 ∧ 2 < 32 ∧
    (setTValues exampleLUT zeroBuffer F3Frame.F3Frame [3]).errorSymbols[0]? = some 0 ∧
    (setTValues exampleLUT zeroBuffer F3Frame.F3Frame dataRuns).errorSymbols[2]? = some 1 ∧
    (setTValues exampleLUT zeroBuffer F3Frame.F3Frame dataRuns).dataSymbols[2]? = some 0 :=
  ⟨by decide, by decide, by decide, by decide, by decide, by decide,
    ((setTValues_error_flagging exampleLUT zeroBuffer F3Frame.F3Frame [3] (by decide)
      (by decide) (by decide) 0 (by decide)).2.2 ⟨⟨0, by decide⟩, by decide⟩).1,
    (setTValues_error_flagging exampleLUT zeroBuffer F3Frame.F3Frame dataRuns (by decide)
      (by decide) (by decide) 2 (by decide)).1.mpr
      (dataRuns_field3 ▸ exampleLUT_ne_of_ge 4098 (by decide)),
    (setTValues_error_flagging exampleLUT zeroBuffer F3Frame.F3Frame dataRuns (by decide)
      (by decide) (by decide) 2 (by decide)).2.1
      (dataRuns_field3 ▸ exampleLUT_ne_of_ge 4098 (by decide))⟩

/-- Claim C5 (empty input is a no-op): for every frame state `s` (any values of
`dataSymbols`, `errorSymbols`, `subcodeSymbol`, `isSync0`, `isSync1`), `setTValues`
with the empty run-length sequence returns and leaves all five fields of `s`
unchanged. -/
theorem setTValues_empty_noop (lut : EfmTable) (raw0 : List Nat) (s : F3Frame) :
    setTValues lut raw0 s [] = s ∧
    (setTValues lut raw0 s []).dataSymbols = s.dataSymbols ∧
    (setTValues lut raw0 s []).errorSymbols = s.errorSymbols ∧
    (setTValues lut raw0 s []).subcodeSymbol = s.subcodeSymbol ∧
    (setTValues lut raw0 s []).isSync0 = s.isSync0 ∧
    (setTValues lut raw0 s []).isSync1 = s.isSync1 :=
  ⟨rfl, rfl, rfl, rfl, rfl, rfl⟩

/-- Claim C7 (bit-field extraction equals the bit-by-bit reference): for every byte
buffer, bit offset `b` and width `w ≤ 31` such that bits `b .. b + w - 1` lie inside the
buffer, `getBits buffer b w` is the sum over `k < w` of `bit (b + k) * 2 ^ (w - 1 - k)`,
where `bit n` is bit `7 - n mod 8` of byte `n div 8`; the result lies in `0 .. 2 ^ w - 1`,
and fields that span byte boundaries are read correctly. -/
theorem getBits_reference (rawData : List Nat) (b w : Nat) (hw : w ≤ 31)
    (_hin : b + w ≤ 8 * rawData.length) :
    getBits rawData b w =
      ((∑ k in Finset.range w,
        (if bufBit rawData (b + k) then 1 else 0) * 2 ^ (w - 1 - k) : Nat) : Int) ∧
    0 ≤ getBits rawData b w ∧ getBits rawData b w ≤ 2 ^ w - 1 ∧
    getBits rawData b w < 2 ^ 31 := by
  rw [getBits_eq_msbValue, ← msbValue_eq_sum]
  have h := msbValue_lt (bufBit rawData) w b
  have h2 : (2 : Nat) ^ w ≤ 2 ^ 31 := Nat.pow_le_pow_right (by omega) hw
  have h3 : ((msbValue (bufBit rawData) b w : Nat) : Int) < ((2 ^ w : Nat) : Int) := by
    exact_mod_cast h
  have h4 : (((2 : Nat) ^ w : Nat) : Int) ≤ ((2 ^ 31 : Nat) : Int) := by exact_mod_cast h2
  push_cast at h3 h4
  refine ⟨rfl, ?_, ?_, ?_⟩
  · exact Int.natCast_nonneg _
  · omega
  · omega

theorem getBits_reference_witness :
    14 ≤ 31 ∧ 5 + 14 ≤ 8 * ([0xA5, 0x3C, 0xF0] : List Nat).length ∧
    getBits [0xA5, 0x3C, 0xF0] 5 14 =
      ((∑ k in Finset.range 14,
        (if bufBit [0xA5, 0x3C, 0xF0] (5 + k) then 1 else 0) * 2 ^ (14 - 1 - k) : Nat) : Int) ∧
    getBits [0xA5, 0x3C, 0xF0] 5 14 = 0x29E7 :=
  ⟨by decide, by decide,
    (getBits_reference [0xA5, 0x3C, 0xF0] 5 14 (by decide) (by decide)).1, by decide⟩

/-- Claim C8 (symbol translation is a first-match inverse lookup): for every 256-entry
table and every channel code `c`, `translateEfm c` returns the least index `p` in
0..255 with `table[p] = c` when such an index exists, and -1 exactly when no entry
equals `c`; the result is always in -1..255, and for a table with pairwise distinct
codes `translateEfm (table[v]) = v` for every `v` in 0..255. -/
theorem translateEfm_first_match (lut : EfmTable) (c : Int) :
    ((∃ p : Fin 256, lut p = c) →
      ∃ p : Fin 256, lut p = c ∧ (∀ q : Fin 256, q.val < p.val → lut q ≠ c) ∧
        translateEfm lut c = (p.val : Int)) ∧
    (∀ p : Fin 256, lut p = c → (∀ q : Fin 256, q.val < p.val → lut q ≠ c) →
      translateEfm lut c = (p.val : Int)) ∧
    (translateEfm lut c = -1 ↔ ∀ q : Fin 256, lut q ≠ c) ∧
    (-1 ≤ translateEfm lut c ∧ translateEfm lut c ≤ 255) ∧
    (DistinctCodes lut → ∀ v : Fin 256, translateEfm lut (lut v) = (v.val : Int)) := by
  refine ⟨?_, translateEfm_first lut c, translateEfm_eq_neg_one_iff lut c,
    translateEfm_range lut c, fun hd v => translateEfm_of_distinct lut hd v⟩
  rintro ⟨p, hp⟩
  rcases translateEfm_spec lut c with ⟨_, hnone⟩ | ⟨p2, h1, h2, h3⟩
  · exact absurd hp (hnone p)
  · exact ⟨p2, h1, h2, h3⟩

theorem exampleLUT_first (p q : Fin 256) (h : q.val < p.val) :
    exampleLUT q ≠ exampleLUT p := by
  intro he
  unfold exampleLUT at he
  omega

theorem translateEfm_first_match_witness :
    DistinctCodes exampleLUT ∧
    translateEfm exampleLUT (exampleLUT ⟨200, by decide⟩) = 200 ∧
    translateEfm exampleLUT (exampleLUT ⟨17, by decide⟩) = 17 ∧
    translateEfm exampleLUT 0x801 = -1 :=
  ⟨exampleLUT_distinct,
    (translateEfm_first_match exampleLUT 0).2.2.2.2 exampleLUT_distinct ⟨200, by decide⟩,
    (translateEfm_first_match exampleLUT (exampleLUT ⟨17, by decide⟩)).2.1 ⟨17, by decide⟩ rfl
      (fun q h => exampleLUT_first ⟨17, by decide⟩ q h),
    (translateEfm_first_match exampleLUT 0x801).2.2.1.mpr
      (exampleLUT_ne_of_ge 0x801 (by decide))⟩

/-- Claim C9 (determinism), at the failing input `[3]`: the single run fills one byte
of the working buffer, the 33 fields are read from bytes 3..73, which the call never
wrote, and the decoded frame follows the stale content: with an all-zero buffer
`isSync0` stays false, with bits 29 and 40 set in the stale buffer it becomes true. -/
theorem setTValues_short_input_reads_stale_buffer :
    zeroBuffer.length = 75 ∧ staleBuffer.length = 75 ∧
    (setTValues exampleLUT zeroBuffer F3Frame.F3Frame [3]).isSync0 = false ∧
    (setTValues exampleLUT staleBuffer F3Frame.F3Frame [3]).isSync0 = true ∧
    setTValues exampleLUT zeroBuffer F3Frame.F3Frame [3] ≠
      setTValues exampleLUT staleBuffer F3Frame.F3Frame [3] := by
  have h1 : (setTValues exampleLUT zeroBuffer F3Frame.F3Frame [3]).isSync0 = false := by
    rw [setTValues_isSync0 _ _ _ _ (by decide)]
    decide
  have h2 : (setTValues exampleLUT staleBuffer F3Frame.F3Frame [3]).isSync0 = true := by
    rw [setTValues_isSync0 _ _ _ _ (by decide)]
    decide
  refine ⟨by decide, by decide, h1, h2, ?_⟩
  intro h
  rw [h, h2] at h1
  exact Bool.noConfusion h1

theorem setTValues_new_syncInvariant (lut : EfmTable) (raw0 : List Nat) (ts : List Int) :
    SyncInvariant (setTValues lut raw0 F3Frame.F3Frame ts) := by
  cases ts with
  | nil =>
    refine ⟨?_, fun _ => rfl⟩
    rintro ⟨h, _⟩
    exact Bool.noConfusion h
  | cons t rest =>
    have hne : t :: rest ≠ [] := List.cons_ne_nil _ _
    unfold SyncInvariant
    rw [setTValues_isSync0 lut raw0 _ _ hne, setTValues_isSync1 lut raw0 _ _ hne,
      setTValues_subcodeSymbol lut raw0 _ _ hne]
    simp only [F3Frame.F3Frame, Bool.false_or, decide_eq_true_eq]
    constructor
    · rintro ⟨h1, h2⟩
      omega
    · intro h
      rw [if_pos h]

theorem runCalls_all_empty (lut : EfmTable) :
    ∀ (calls : List (List Nat × List Int)) (s : F3Frame),
      (calls.filter (fun c => !c.2.isEmpty)).length = 0 → runCalls lut calls s = s := by
  intro calls
  induction calls with
  | nil => intro s _; rfl
  | cons c rest ih =>
    intro s h
    obtain ⟨raw0, ts⟩ := c
    cases ts with
    | nil =>
      simp only [runCalls]
      exact ih s (by simpa using h)
    | cons t ts => simp at h

/-- Claim C10 as amended (sync-flag invariant of a single decode): in every frame state
reached from the constructor by `setTValues` calls of which at most one has a non-empty
input, at most one of `isSync0` and `isSync1` is true, and whenever either is true
`subcodeSymbol` is 0. -/
theorem sync_invariant_single_decode (lut : EfmTable) :
    ∀ (calls : List (List Nat × List Int)),
      (calls.filter (fun c => !c.2.isEmpty)).length ≤ 1 →
      SyncInvariant (runCalls lut calls F3Frame.F3Frame) := by
  intro calls
  induction calls with
  | nil => intro _; exact setTValues_new_syncInvariant lut [] []
  | cons c rest ih =>
    intro h
    obtain ⟨raw0, ts⟩ := c
    cases ts with
    | nil =>
      simp only [runCalls]
      exact ih (by simpa using h)
    | cons t ts =>
      simp only [runCalls]
      rw [runCalls_all_empty lut rest _ (by simp at h; simpa using h)]
      exact setTValues_new_syncInvariant lut raw0 (t :: ts)

theorem sync_invariant_single_decode_witness :
    ([(zeroBuffer, []), (zeroBuffer, sync0Runs), (staleBuffer, [])].filter
      (fun c => !c.2.isEmpty)).length ≤ 1 ∧
    SyncInvariant (runCalls exampleLUT
      [(zeroBuffer, []), (zeroBuffer, sync0Runs), (staleBuffer, [])] F3Frame.F3Frame) :=
  ⟨by decide, sync_invariant_single_decode exampleLUT
    [(zeroBuffer, []), (zeroBuffer, sync0Runs), (staleBuffer, [])] (by decide)⟩

/-- Claim C10 as stated fails: a frame that decodes a sync-0 frame and is then reused
to decode a sync-1 frame has both `isSync0` and `isSync1` true, because `setTValues`
sets the flags and never clears them. -/
theorem sync_flags_both_set_on_reuse :
    (runCalls exampleLUT [(zeroBuffer, sync0Runs), (zeroBuffer, sync1Runs)]
      F3Frame.F3Frame).isSync0 = true ∧
    (runCalls exampleLUT [(zeroBuffer, sync0Runs), (zeroBuffer, sync1Runs)]
      F3Frame.F3Frame).isSync1 = true ∧
    ¬ SyncInvariant (runCalls exampleLUT [(zeroBuffer, sync0Runs), (zeroBuffer, sync1Runs)]
      F3Frame.F3Frame) := by
  have h0 : (runCalls exampleLUT [(zeroBuffer, sync0Runs), (zeroBuffer, sync1Runs)]
      F3Frame.F3Frame).isSync0 = true := by
    simp only [runCalls]
    rw [setTValues_isSync0 _ _ _ _ (by decide), setTValues_isSync0 _ _ _ _ (by decide),
      bufferField_of_frame zeroBuffer sync0Runs 0 (by decide) (by decide) (by decide)
        (by decide)]
    decide
  have h1 : (runCalls exampleLUT [(zeroBuffer, sync0Runs), (zeroBuffer, sync1Runs)]
      F3Frame.F3Frame).isSync1 = true := by
    simp only [runCalls]
    rw [setTValues_isSync1 _ _ _ _ (by decide),
      bufferField_of_frame zeroBuffer sync1Runs 0 (by decide) (by decide) (by decide)
        (by decide)]
    simp
    right
    decide
  exact ⟨h0, h1, fun h => h.1 ⟨h0, h1⟩⟩

/-! ## The frame keeps its size -/

theorem decodeDataSymbols_length (lut : EfmTable) (ev : List Int) :
    ∀ (fuel i : Nat) (self : F3Frame),
      (decodeDataSymbols lut ev fuel i self).dataSymbols.length = self.dataSymbols.length ∧
      (decodeDataSymbols lut ev fuel i self).errorSymbols.length =
        self.errorSymbols.length := by
  intro fuel
  induction fuel with
  | zero => intro i self; exact ⟨rfl, rfl⟩
  | succ fuel ih =>
    intro i self
    rw [decodeDataSymbols_succ]
    obtain ⟨h1, h2⟩ := ih (i + 1)
      { self with
        dataSymbols := self.dataSymbols.set i (symbolOf (translateEfm lut (ev.getD (i + 1) 0))).1
        errorSymbols :=
          self.errorSymbols.set i (symbolOf (translateEfm lut (ev.getD (i + 1) 0))).2 }
    rw [h1, h2]
    simp only [List.length_set, and_self]

theorem setTValues_length (lut : EfmTable) (raw0 : List Nat) (self : F3Frame)
    (ts : List Int) :
    (setTValues lut raw0 self ts).dataSymbols.length = self.dataSymbols.length ∧
    (setTValues lut raw0 self ts).errorSymbols.length = self.errorSymbols.length := by
  cases ts with
  | nil => exact ⟨rfl, rfl⟩
  | cons t rest =>
    rw [setTValues_eq lut raw0 self (t :: rest) (List.cons_ne_nil _ _)]
    obtain ⟨h1, h2⟩ := decodeDataSymbols_length lut
      (extractEfmValues (expandTValues raw0 ((t :: rest).map rangeCheck)) 33 27) 32 0
      (decodeSubcode lut
        (extractEfmValues (expandTValues raw0 ((t :: rest).map rangeCheck)) 33 27) self)
    obtain ⟨h3, h4⟩ := decodeSubcode_symbols lut
      (extractEfmValues (expandTValues raw0 ((t :: rest).map rangeCheck)) 33 27) self
    rw [h1, h2, h3, h4]
    exact ⟨rfl, rfl⟩

theorem symbolOf_flag (value : Int) : (symbolOf value).2 = 0 ∨ (symbolOf value).2 = 1 := by
  unfold symbolOf
  split
  · exact Or.inl rfl
  · exact Or.inr rfl

theorem setTValues_sizeInvariant (lut : EfmTable) (raw0 : List Nat) (self : F3Frame)
    (ts : List Int) (h : SizeInvariant self) : SizeInvariant (setTValues lut raw0 self ts) := by
  obtain ⟨hd, he, hf⟩ := h
  obtain ⟨h1, h2⟩ := setTValues_length lut raw0 self ts
  refine ⟨by rw [h1, hd], by rw [h2, he], ?_⟩
  cases ts with
  | nil => exact hf
  | cons t rest =>
    intro e hmem
    obtain ⟨j, hj, hje⟩ := List.getElem_of_mem hmem
    have hj32 : j < 32 := by rw [h2, he] at hj; exact hj
    have hs := (setTValues_symbols lut raw0 self (t :: rest) (List.cons_ne_nil _ _) j hj32).2 he
    rw [List.getElem?_eq_getElem hj, hje] at hs
    have he2 := Option.some.inj hs
    rw [he2]
    exact symbolOf_flag _

theorem runCalls_sizeInvariant (lut : EfmTable) :
    ∀ (calls : List (List Nat × List Int)) (s : F3Frame), SizeInvariant s →
      SizeInvariant (runCalls lut calls s) := by
  intro calls
  induction calls with
  | nil => intro s h; exact h
  | cons c rest ih =>
    intro s h
    obtain ⟨raw0, ts⟩ := c
    simp only [runCalls]
    exact ih _ (setTValues_sizeInvariant lut raw0 s ts h)

theorem new_sizeInvariant : SizeInvariant F3Frame.F3Frame := by
  refine ⟨rfl, rfl, ?_⟩
  intro e he
  left
  exact List.eq_of_mem_replicate he

/-- Claim C11 (size invariant): a newly constructed frame has 32 zero data symbols, 32
zero error flags, `subcodeSymbol` 0 and both sync flags false, and in every state
reached from it by any number of `setTValues` calls (empty or non-empty inputs, any
content of the working buffer) `dataSymbols` and `errorSymbols` each have exactly 32
elements and every error flag is 0 or 1. -/
theorem frame_size_invariant (lut : EfmTable) (calls : List (List Nat × List Int)) :
    F3Frame.F3Frame.dataSymbols = List.replicate 32 0 ∧
    F3Frame.F3Frame.errorSymbols = List.replicate 32 0 ∧
    F3Frame.F3Frame.subcodeSymbol = 0 ∧
    F3Frame.F3Frame.isSync0 = false ∧ F3Frame.F3Frame.isSync1 = false ∧
    (runCalls lut calls F3Frame.F3Frame).dataSymbols.length = 32 ∧
    (runCalls lut calls F3Frame.F3Frame).errorSymbols.length = 32 ∧
    ∀ e ∈ (runCalls lut calls F3Frame.F3Frame).errorSymbols, e = 0 ∨ e = 1 := by
  obtain ⟨h1, h2, h3⟩ := runCalls_sizeInvariant lut calls _ new_sizeInvariant
  exact ⟨rfl, rfl, rfl, rfl, rfl, h1, h2, h3⟩

theorem frame_size_invariant_witness :
    (runCalls exampleLUT [(zeroBuffer, [3]), (staleBuffer, sync0Runs), (zeroBuffer, [])]
      F3Frame.F3Frame).dataSymbols.length = 32 ∧
    (runCalls exampleLUT [(zeroBuffer, [3]), (staleBuffer, sync0Runs), (zeroBuffer, [])]
      F3Frame.F3Frame).errorSymbols.length = 32 :=
  ⟨(frame_size_invariant exampleLUT
      [(zeroBuffer, [3]), (staleBuffer, sync0Runs), (zeroBuffer, [])]).2.2.2.2.2.1,
    (frame_size_invariant exampleLUT
      [(zeroBuffer, [3]), (staleBuffer, sync0Runs), (zeroBuffer, [])]).2.2.2.2.2.2.1⟩

/-! ## Which bytes of the working buffer a call writes and reads -/

theorem emitBit_bytePosition (bc : Int) (s : ExpandState) :
    (emitBit bc s).bytePosition =
      if s.bitPosition - 1 < 0 then s.bytePosition + 1 else s.bytePosition := by
  unfold emitBit
  by_cases h : s.bitPosition - 1 < 0 <;> simp [h]

theorem mem_emitBitWrites (bc : Int) (s : ExpandState) (i : Nat) :
    i ∈ emitBitWrites s ↔ s.bytePosition ≤ i ∧ i < (emitBit bc s).bytePosition := by
  rw [emitBit_bytePosition]
  unfold emitBitWrites
  split
  · simp only [List.mem_singleton]
    omega
  · simp only [List.not_mem_nil, false_iff]
    omega

theorem emitBit_bytePosition_le (bc : Int) (s : ExpandState) :
    s.bytePosition ≤ (emitBit bc s).bytePosition ∧
    (emitBit bc s).bytePosition ≤ s.bytePosition + 1 := by
  rw [emitBit_bytePosition]
  split <;> omega

theorem emitBits_bytePosition_le (tValue : Int) :
    ∀ (fuel : Nat) (bc : Int) (s : ExpandState),
      s.bytePosition ≤ (emitBits tValue fuel bc s).bytePosition := by
  intro fuel
  induction fuel with
  | zero => intro bc s; exact le_refl _
  | succ fuel ih =>
    intro bc s
    unfold emitBits
    have h1 := (emitBit_bytePosition_le bc s).1
    split
    · simp only []
      split
      · exact h1
      · exact le_trans h1 (ih _ _)
    · exact le_refl _

theorem mem_emitBitsWrites (tValue : Int) :
    ∀ (fuel : Nat) (bc : Int) (s : ExpandState) (i : Nat),
      i ∈ emitBitsWrites tValue fuel bc s ↔
        s.bytePosition ≤ i ∧ i < (emitBits tValue fuel bc s).bytePosition := by
  intro fuel
  induction fuel with
  | zero =>
    intro bc s i
    simp only [emitBitsWrites, emitBits, List.not_mem_nil, false_iff]
    omega
  | succ fuel ih =>
    intro bc s i
    unfold emitBitsWrites emitBits
    have h1 := emitBit_bytePosition_le bc s
    have h2 := mem_emitBitWrites bc s i
    have h3 := emitBits_bytePosition_le tValue fuel (bc + 1) (emitBit bc s)
    by_cases hlt : bc < tValue
    · simp only [hlt, if_true]
      by_cases hstop : (emitBit bc s).bytePosition > 73
      · simp only [hstop, if_true]
        exact h2
      · simp only [hstop, if_false, List.mem_append, h2, ih]
        omega
    · simp only [hlt, if_false, List.not_mem_nil, false_iff]
      omega

theorem expandRuns_bytePosition_le :
    ∀ (ts : List Int) (s : ExpandState), s.bytePosition ≤ (expandRuns ts s).bytePosition := by
  intro ts
  induction ts with
  | nil => intro s; exact le_refl _
  | cons t rest ih =>
    intro s
    unfold expandRuns
    have h1 := emitBits_bytePosition_le t t.toNat 0 s
    simp only []
    split
    · exact h1
    · exact le_trans h1 (ih _)

theorem mem_expandRunsWrites :
    ∀ (ts : List Int) (s : ExpandState) (i : Nat),
      i ∈ expandRunsWrites ts s ↔ s.bytePosition ≤ i ∧ i < (expandRuns ts s).bytePosition := by
  intro ts
  induction ts with
  | nil =>
    intro s i
    simp only [expandRunsWrites, expandRuns, List.not_mem_nil, false_iff]
    omega
  | cons t rest ih =>
    intro s i
    unfold expandRunsWrites expandRuns
    have h1 := emitBits_bytePosition_le t t.toNat 0 s
    have h2 := mem_emitBitsWrites t t.toNat 0 s i
    have h3 := expandRuns_bytePosition_le rest (emitBits t t.toNat 0 s)
    by_cases hstop : (emitBits t t.toNat 0 s).bytePosition > 73
    · simp only [hstop, if_true]
      exact h2
    · simp only [hstop, if_false, List.mem_append, h2, ih]
      omega

theorem mem_expandTValuesWrites (raw0 : List Nat) (ts : List Int) (i : Nat) :
    i ∈ expandTValuesWrites raw0 ts ↔
      i < (expandRuns ts
        { rawFrameData := raw0, bitPosition := 7, bytePosition := 0,
          byteData := 0 }).bytePosition ∨
      (i = (expandRuns ts
        { rawFrameData := raw0, bitPosition := 7, bytePosition := 0,
          byteData := 0 }).bytePosition ∧ i < 74) := by
  unfold expandTValuesWrites
  rw [List.mem_append, mem_expandRunsWrites]
  split
  · simp only [List.mem_singleton]
    omega
  · simp only [List.not_mem_nil, or_false]
    constructor
    · intro h
      exact Or.inl h.2
    · intro h
      exact ⟨Nat.zero_le _, by omega⟩

theorem mem_getBitsLoopReads (i : Nat) :
    ∀ (n byteIndex k : Nat), k ≤ 7 →
      (i ∈ getBitsLoopReads n byteIndex (7 - (k : Int)) ↔
        ∃ j, j < n ∧ i = (8 * byteIndex + k + j) / 8) := by
  intro n
  induction n with
  | zero =>
    intro byteIndex k _
    simp [getBitsLoopReads]
  | succ n ih =>
    intro byteIndex k hk
    unfold getBitsLoopReads
    rw [List.mem_cons]
    by_cases hk7 : k = 7
    · subst hk7
      have hneg : (7 - ((7 : Nat) : Int)) - 1 < 0 := by omega
      rw [if_pos hneg]
      have h := ih (byteIndex + 1) 0 (by omega)
      simp only [Nat.cast_zero, sub_zero] at h
      rw [h]
      constructor
      · rintro (h0 | ⟨j, hj, hij⟩)
        · exact ⟨0, by omega, by omega⟩
        · exact ⟨j + 1, by omega, by omega⟩
      · rintro ⟨j, hj, hij⟩
        cases j with
        | zero => left; omega
        | succ j => right; exact ⟨j, by omega, by omega⟩
    · have hneg : ¬ (7 - (k : Int)) - 1 < 0 := by omega
      rw [if_neg hneg]
      have hk1 : (7 - (k : Int)) - 1 = 7 - ((k + 1 : Nat) : Int) := by push_cast; ring
      rw [hk1, ih byteIndex (k + 1) (by omega)]
      constructor
      · rintro (h0 | ⟨j, hj, hij⟩)
        · exact ⟨0, by omega, by omega⟩
        · exact ⟨j + 1, by omega, by omega⟩
      · rintro ⟨j, hj, hij⟩
        cases j with
        | zero => left; omega
        | succ j => right; exact ⟨j, by omega, by omega⟩

theorem mem_getBitsReads (bitIndex width i : Nat) :
    i ∈ getBitsReads bitIndex width ↔ ∃ j, j < width ∧ i = (bitIndex + j) / 8 := by
  unfold getBitsReads
  rw [mem_getBitsLoopReads i width (bitIndex / 8) (bitIndex % 8) (by omega)]
  have h : 8 * (bitIndex / 8) + bitIndex % 8 = bitIndex := by omega
  rw [h]

theorem mem_extractEfmValuesReads (i : Nat) :
    ∀ (fuel currentBit : Nat),
      (i ∈ extractEfmValuesReads fuel currentBit ↔
        ∃ k, k < fuel ∧ ∃ j, j < 14 ∧ i = (currentBit + 17 * k + j) / 8) := by
  intro fuel
  induction fuel with
  | zero =>
    intro cb
    simp [extractEfmValuesReads]
  | succ fuel ih =>
    intro cb
    unfold extractEfmValuesReads
    rw [List.mem_append, mem_getBitsReads, ih]
    constructor
    · rintro (⟨j, hj, hij⟩ | ⟨k, hk, j, hj, hij⟩)
      · exact ⟨0, by omega, j, hj, by omega⟩
      · exact ⟨k + 1, by omega, j, hj, by omega⟩
    · rintro ⟨k, hk, j, hj, hij⟩
      cases k with
      | zero => left; exact ⟨j, hj, by omega⟩
      | succ k => right; exact ⟨k, by omega, j, hj, by omega⟩

theorem expandRuns_final (raw0 : List Nat) (ts : List Int) (hraw : raw0.length = 75)
    (hl : LegalRuns ts) :
    Holds (expandRuns ts
      { rawFrameData := raw0, bitPosition := 7, bytePosition := 0, byteData := 0 })
      ((channelBits ts).take 592) := by
  have h0 : Holds
      { rawFrameData := raw0, bitPosition := 7, bytePosition := 0, byteData := 0 } [] := by
    refine ⟨hraw, rfl, rfl, by simp, ?_, ?_⟩
    · intro n hn
      simp at hn
    · intro j _
      simp
  have h := Holds.expandRuns_holds ts _ [] hl h0 (by simp)
  rw [List.nil_append] at h
  exact h

theorem expandRuns_final_bytePosition (raw0 : List Nat) (ts : List Int)
    (hraw : raw0.length = 75) (hl : LegalRuns ts) :
    (expandRuns ts
      { rawFrameData := raw0, bitPosition := 7, bytePosition := 0,
        byteData := 0 }).bytePosition = min 592 (channelBits ts).length / 8 := by
  have h := (expandRuns_final raw0 ts hraw hl).bytePos
  rw [List.length_take] at h
  exact h

theorem expandRuns_final_bitsEmitted (raw0 : List Nat) (ts : List Int)
    (hraw : raw0.length = 75) (hl : LegalRuns ts) :
    bitsEmitted (expandRuns ts
      { rawFrameData := raw0, bitPosition := 7, bytePosition := 0, byteData := 0 }) =
      ((min 592 (channelBits ts).length : Nat) : Int) := by
  obtain ⟨_, h1, h2, _, _, _⟩ := expandRuns_final raw0 ts hraw hl
  rw [List.length_take] at h1 h2
  unfold bitsEmitted
  rw [h1, h2]
  omega

theorem mem_setTValuesReads (ts : List Int) (i : Nat) (h : i ∈ setTValuesReads ts) :
    ∃ k, k < 33 ∧ ∃ j, j < 14 ∧ i = (27 + 17 * k + j) / 8 := by
  unfold setTValuesReads at h
  split at h
  · simp at h
  · exact (mem_extractEfmValuesReads i 33 (24 + 3)).mp h

/-- Claim C12 (buffer ceiling, no out-of-bounds access): for every run-length sequence
of any length and any values, every write to `rawFrameData` during the bit expansion
and the final flush is at a byte index in 0..73, the expansion emits at most 592 bits
before it stops, and every byte read by the 33 `getBits` calls (bit offsets
`27 + 17 k`, width 14, `k` in 0..32) has an index of at most 73; no access falls outside
the 75-byte buffer. -/
theorem setTValues_buffer_ceiling (raw0 : List Nat) (hraw : raw0.length = 75)
    (ts : List Int) :
    (∀ i ∈ setTValuesWrites raw0 ts, i ≤ 73 ∧ i < raw0.length) ∧
    bitsEmitted (expandRuns (ts.map rangeCheck)
      { rawFrameData := raw0, bitPosition := 7, bytePosition := 0, byteData := 0 }) ≤ 592 ∧
    (∀ i ∈ setTValuesReads ts, i ≤ 73 ∧ i < raw0.length) ∧
    (∀ k, k < 33 → ∀ i ∈ getBitsReads (27 + 17 * k) 14, i ≤ 73 ∧ i < raw0.length) := by
  have hl := map_rangeCheck_legal ts
  refine ⟨?_, ?_, ?_, ?_⟩
  · intro i hi
    unfold setTValuesWrites at hi
    split at hi
    · simp at hi
    · rw [mem_expandTValuesWrites, expandRuns_final_bytePosition raw0 _ hraw hl] at hi
      omega
  · rw [expandRuns_final_bitsEmitted raw0 _ hraw hl]
    omega
  · intro i hi
    obtain ⟨k, hk, j, hj, hij⟩ := mem_setTValuesReads ts i hi
    omega
  · intro k hk i hi
    obtain ⟨j, hj, hij⟩ := (mem_getBitsReads _ _ _).mp hi
    omega

theorem setTValues_buffer_ceiling_witness :
    zeroBuffer.length = 75 ∧ 32 < 33 ∧ 73 ∈ getBitsReads (27 + 17 * 32) 14 ∧
    bitsEmitted (expandRuns (longRuns.map rangeCheck)
      { rawFrameData := zeroBuffer, bitPosition := 7, bytePosition := 0, byteData := 0 }) ≤ 592 ∧
    (73 ≤ 73 ∧ 73 < zeroBuffer.length) :=
  ⟨by decide, by decide, by decide,
    (setTValues_buffer_ceiling zeroBuffer (by decide) longRuns).2.1,
    (setTValues_buffer_ceiling zeroBuffer (by decide) longRuns).2.2.2 32 (by decide) 73
      (by decide)⟩

theorem channelBit_cons (c : Int) (cs : List Int) (hc : 1 ≤ c) (n : Nat) :
    channelBit (c :: cs) n =
      if n = 0 then true else if n < c.toNat then false else channelBit cs (n - c.toNat) := by
  unfold channelBit
  simp only [channelBits]
  by_cases h0 : n = 0
  · subst h0
    simp
  · rw [if_neg h0]
    have hlen : (true :: List.replicate (c.toNat - 1) false).length = c.toNat := by
      simp only [List.length_cons, List.length_replicate]
      omega
    by_cases hlt : n < c.toNat
    · rw [if_pos hlt, List.getD_append _ _ _ _ (by rw [hlen]; exact hlt)]
      obtain ⟨m, hm⟩ : ∃ m, n = m + 1 := ⟨n - 1, by omega⟩
      subst hm
      rw [List.getD_cons_succ, List.getD_eq_getElem?_getD, List.getElem?_replicate]
      split <;> rfl
    · rw [if_neg hlt, List.getD_append_right _ _ _ _ (by rw [hlen]; omega), hlen]

theorem sum_take_nonneg : ∀ (cs : List Int), LegalRuns cs → ∀ j, 0 ≤ (cs.take j).sum := by
  intro cs
  induction cs with
  | nil => intro _ j; simp
  | cons c rest ih =>
    intro hl j
    cases j with
    | zero => simp
    | succ j =>
      have hc := hl c (List.mem_cons_self _ _)
      have := ih (fun x hx => hl x (List.mem_cons_of_mem _ hx)) j
      simp only [List.take_succ_cons, List.sum_cons]
      omega

/-- Bit `n` of the channel bitstream is set exactly at the start of a run. -/
theorem channelBit_iff_runStart :
    ∀ (cs : List Int), LegalRuns cs → ∀ n : Nat,
      (channelBit cs n = true ↔ ∃ j, j < cs.length ∧ (n : Int) = (cs.take j).sum) := by
  intro cs
  induction cs with
  | nil =>
    intro _ n
    simp [channelBit, channelBits]
  | cons c rest ih =>
    intro hl n
    have hc := hl c (List.mem_cons_self _ _)
    have hrest : LegalRuns rest := fun x hx => hl x (List.mem_cons_of_mem _ hx)
    rw [channelBit_cons c rest (by omega) n]
    by_cases h0 : n = 0
    · subst h0
      rw [if_pos rfl]
      simp only [true_iff]
      exact ⟨0, by simp, by simp⟩
    · rw [if_neg h0]
      by_cases hlt : n < c.toNat
      · rw [if_pos hlt]
        simp only [Bool.false_eq_true, false_iff]
        rintro ⟨j, hj, hn⟩
        cases j with
        | zero =>
          simp at hn
          omega
        | succ j =>
          have := sum_take_nonneg rest hrest j
          simp only [List.take_succ_cons, List.sum_cons] at hn
          omega
      · rw [if_neg hlt, ih hrest (n - c.toNat)]
        constructor
        · rintro ⟨j, hj, hn⟩
          refine ⟨j + 1, by simp only [List.length_cons]; omega, ?_⟩
          simp only [List.take_succ_cons, List.sum_cons]
          omega
        · rintro ⟨j, hj, hn⟩
          cases j with
          | zero =>
            simp at hn
            omega
          | succ j =>
            simp only [List.length_cons] at hj
            simp only [List.take_succ_cons, List.sum_cons] at hn
            exact ⟨j, by omega, by omega⟩

/-- Claim C13 (bit expansion matches the run-length definition): for every non-empty
sequence with clamped runs `c_0 .. c_(m-1)` and total `S`, after the expansion and the
final flush, for every bit position `n < min S 592`, bit `n` of the buffer (bit
`7 - n mod 8` of byte `n div 8`) is 1 if and only if `n = c_0 + ... + c_(j-1)` for some
`j` in `0 .. m-1`; and when `S < 592` the byte at index `S div 8` is written, with all
of its bits from position `S` onward equal to 0. -/
theorem expansion_matches_runs (raw0 : List Nat) (hraw : raw0.length = 75)
    (ts : List Int) (hne : ts ≠ []) :
    (∀ n : Nat, (n : Int) < (ts.map rangeCheck).sum → n < 592 →
      (bufBit (expandTValues raw0 (ts.map rangeCheck)) n = true ↔
        ∃ j, j < ts.length ∧ (n : Int) = ((ts.map rangeCheck).take j).sum)) ∧
    ((ts.map rangeCheck).sum < 592 →
      (ts.map rangeCheck).sum.toNat / 8 ∈ setTValuesWrites raw0 ts ∧
      ∀ n : Nat, (ts.map rangeCheck).sum ≤ (n : Int) →
        n / 8 = (ts.map rangeCheck).sum.toNat / 8 →
        bufBit (expandTValues raw0 (ts.map rangeCheck)) n = false) := by
  have hl := map_rangeCheck_legal ts
  have hS := channelBits_length (ts.map rangeCheck) hl
  constructor
  · intro n hn hn592
    rw [expandTValues_bit raw0 _ hraw hl n hn592 (by omega),
      channelBit_iff_runStart _ hl n, List.length_map]
  · intro hlt
    constructor
    · unfold setTValuesWrites
      have hemp : ts.isEmpty = false := by
        cases ts with
        | nil => exact absurd rfl hne
        | cons _ _ => rfl
      rw [hemp]
      simp only [Bool.false_eq_true, if_false]
      rw [mem_expandTValuesWrites, expandRuns_final_bytePosition raw0 _ hraw hl]
      right
      omega
    · intro n hn hbyte
      rw [expandTValues_bit raw0 _ hraw hl n (by omega) (by omega)]
      unfold channelBit
      exact List.getD_eq_default _ _ (by omega)

theorem expansion_matches_runs_witness :
    zeroBuffer.length = 75 ∧ ([0, 11, 3] : List Int) ≠ [] ∧
    ((3 : Nat) : Int) < (([0, 11, 3] : List Int).map rangeCheck).sum ∧ 3 < 592 ∧
    (([0, 11, 3] : List Int).map rangeCheck).sum < 592 ∧
    bufBit (expandTValues zeroBuffer (([0, 11, 3] : List Int).map rangeCheck)) 3 = true ∧
    (([0, 11, 3] : List Int).map rangeCheck).sum.toNat / 8 ∈
      setTValuesWrites zeroBuffer [0, 11, 3] :=
  ⟨by decide, by decide, by decide, by decide, by decide,
    ((expansion_matches_runs zeroBuffer (by decide) [0, 11, 3] (by decide)).1 3 (by decide)
      (by decide)).mpr ⟨1, by decide, by decide⟩,
    ((expansion_matches_runs zeroBuffer (by decide) [0, 11, 3] (by decide)).2
      (by decide)).1⟩

/-! ## Subcode decoding, interpreted bits and reuse of a frame -/

theorem extractEfmValues_congr (raw1 raw2 : List Nat) :
    ∀ (fuel currentBit : Nat),
      (∀ k, k < fuel →
        getBits raw1 (currentBit + 17 * k) 14 = getBits raw2 (currentBit + 17 * k) 14) →
      extractEfmValues raw1 fuel currentBit = extractEfmValues raw2 fuel currentBit := by
  intro fuel
  induction fuel with
  | zero => intro _ _; rfl
  | succ fuel ih =>
    intro cb h
    simp only [extractEfmValues]
    have h0 := h 0 (by omega)
    simp only [Nat.mul_zero, Nat.add_zero] at h0
    rw [h0, ih (cb + (14 + 3))]
    intro k hk
    have := h (k + 1) (by omega)
    have e : cb + (14 + 3) + 17 * k = cb + 17 * (k + 1) := by omega
    rw [e]
    exact this

/-- The frame a call produces is a function of the prior frame and the 33 fields of
the working buffer. -/
theorem setTValues_congr (lut : EfmTable) (raw1 raw2 : List Nat) (self : F3Frame)
    (ts1 ts2 : List Int) (hne1 : ts1 ≠ []) (hne2 : ts2 ≠ [])
    (h : ∀ k, k < 33 → bufferField raw1 ts1 k = bufferField raw2 ts2 k) :
    setTValues lut raw1 self ts1 = setTValues lut raw2 self ts2 := by
  rw [setTValues_eq lut raw1 self ts1 hne1, setTValues_eq lut raw2 self ts2 hne2]
  have hev : extractEfmValues (expandTValues raw1 (ts1.map rangeCheck)) 33 27 =
      extractEfmValues (expandTValues raw2 (ts2.map rangeCheck)) 33 27 := by
    apply extractEfmValues_congr
    intro k hk
    rw [getBits_eq_msbValue, getBits_eq_msbValue]
    have := h k hk
    unfold bufferField at this
    rw [this]
  rw [hev]

theorem bufferField_map_rangeCheck (raw0 : List Nat) (ts : List Int) (k : Nat) :
    bufferField raw0 (ts.map rangeCheck) k = bufferField raw0 ts k := by
  unfold bufferField
  rw [map_rangeCheck_of_legal _ (map_rangeCheck_legal ts)]

/-- For a sequence whose clamped runs sum to at least 585 bits every field of the
working buffer is the field of the channel bitstream. -/
theorem bufferField_of_nominal (raw0 : List Nat) (ts : List Int) (k : Nat)
    (hraw : raw0.length = 75) (hS : 585 ≤ (ts.map rangeCheck).sum) (hk : k < 33) :
    bufferField raw0 ts k = channelField (ts.map rangeCheck) (27 + 17 * k) 14 := by
  have hl := map_rangeCheck_legal ts
  have hlen := channelBits_length _ hl
  rw [← bufferField_map_rangeCheck,
    bufferField_eq_channelField raw0 _ k hraw hl hk (by omega)]

theorem ne_nil_of_nominal (ts : List Int) (hS : 585 ≤ (ts.map rangeCheck).sum) : ts ≠ [] := by
  intro h
  rw [h] at hS
  simp at hS

theorem channelBits_append : ∀ (xs ys : List Int),
    channelBits (xs ++ ys) = channelBits xs ++ channelBits ys := by
  intro xs
  induction xs with
  | nil => intro ys; rfl
  | cons x rest ih =>
    intro ys
    rw [List.cons_append]
    simp only [channelBits]
    rw [ih ys, List.append_assoc]

theorem sum_nonneg_of_legal : ∀ (cs : List Int), LegalRuns cs → 0 ≤ cs.sum := by
  intro cs hl
  have := sum_take_nonneg cs hl cs.length
  rw [List.take_length] at this
  exact this

/-- Claim C14 (ordinary subcode decode): for every non-empty run-length sequence whose
subcode field `f` (the 14-bit value at bit offset 27 of the working buffer) is neither
0x801 nor 0x012, `setTValues` on a newly constructed frame leaves both sync flags false
and sets `subcodeSymbol` to `translateEfm f` when `f` is found in the table (a value in
0..255), and to 255 (the not-found result -1 converted to an unsigned 8-bit value) when
`f` is not in the table; step 3 changes no error flag, and the error flags of the
result are those the 32 data fields give. -/
theorem ordinary_subcode_decode (lut : EfmTable) (raw0 : List Nat) (ts : List Int)
    (hne : ts ≠ []) (h0 : bufferField raw0 ts 0 ≠ 0x801) (h1 : bufferField raw0 ts 0 ≠ 0x012) :
    (setTValues lut raw0 F3Frame.F3Frame ts).isSync0 = false ∧
    (setTValues lut raw0 F3Frame.F3Frame ts).isSync1 = false ∧
    ((∃ p : Fin 256, lut p = (bufferField raw0 ts 0 : Int)) →
      ((setTValues lut raw0 F3Frame.F3Frame ts).subcodeSymbol : Int) =
        translateEfm lut (bufferField raw0 ts 0 : Int) ∧
      (setTValues lut raw0 F3Frame.F3Frame ts).subcodeSymbol ≤ 255 ∧
      ∃ p : Fin 256, lut p = (bufferField raw0 ts 0 : Int) ∧
        (setTValues lut raw0 F3Frame.F3Frame ts).subcodeSymbol = p.val) ∧
    ((∀ p : Fin 256, lut p ≠ (bufferField raw0 ts 0 : Int)) →
      translateEfm lut (bufferField raw0 ts 0 : Int) = -1 ∧
      (setTValues lut raw0 F3Frame.F3Frame ts).subcodeSymbol = 255) ∧
    (∀ (ev : List Int) (self : F3Frame),
      (decodeSubcode lut ev self).errorSymbols = self.errorSymbols) ∧
    (∀ i, i < 32 → (setTValues lut raw0 F3Frame.F3Frame ts).errorSymbols[i]? =
      some (if translateEfm lut (bufferField raw0 ts (i + 1) : Int) = -1 then 1 else 0)) := by
  have hsub := setTValues_subcodeSymbol lut raw0 F3Frame.F3Frame ts hne
  rw [if_neg (not_or.mpr ⟨h0, h1⟩)] at hsub
  refine ⟨?_, ?_, ?_, ?_, ?_, ?_⟩
  · rw [setTValues_isSync0 lut raw0 _ ts hne]
    simp [F3Frame.F3Frame, h0]
  · rw [setTValues_isSync1 lut raw0 _ ts hne]
    simp [F3Frame.F3Frame, h1]
  · rintro ⟨p, hp⟩
    rcases translateEfm_spec lut (bufferField raw0 ts 0 : Int) with
      ⟨_, hnone⟩ | ⟨p2, hp2, _, ht⟩
    · exact absurd hp (hnone p)
    · have hlt := p2.isLt
      have hval : (setTValues lut raw0 F3Frame.F3Frame ts).subcodeSymbol = p2.val := by
        rw [hsub, ht]
        omega
      refine ⟨by rw [hval, ht], by omega, p2, hp2, hval⟩
  · intro hnone
    have ht := (translateEfm_eq_neg_one_iff lut (bufferField raw0 ts 0 : Int)).mpr hnone
    refine ⟨ht, ?_⟩
    rw [hsub, ht]
    rfl
  · intro ev self
    exact (decodeSubcode_symbols lut ev self).2
  · intro i hi
    rw [(setTValues_symbols lut raw0 F3Frame.F3Frame ts hne i hi).2 rfl]
    unfold symbolOf
    split_ifs <;> simp_all

theorem plainRuns_field0 : bufferField zeroBuffer plainRuns 0 = 1024 := by
  rw [bufferField_of_frame zeroBuffer plainRuns 0 (by decide) (by decide) (by decide)
    (by decide)]
  decide

theorem ordinary_subcode_decode_witness :
    plainRuns ≠ [] ∧ bufferField zeroBuffer plainRuns 0 ≠ 0x801 ∧
    bufferField zeroBuffer plainRuns 0 ≠ 0x012 ∧
    ([3] : List Int) ≠ [] ∧ bufferField zeroBuffer [3] 0 ≠ 0x801 ∧
    bufferField zeroBuffer [3] 0 ≠ 0x012 ∧
    (setTValues exampleLUT zeroBuffer F3Frame.F3Frame plainRuns).isSync0 = false ∧
    (setTValues exampleLUT zeroBuffer F3Frame.F3Frame plainRuns).subcodeSymbol = 255 ∧
    (setTValues exampleLUT zeroBuffer F3Frame.F3Frame [3]).subcodeSymbol ≤ 255 :=
  ⟨by decide, by rw [plainRuns_field0]; decide, by rw [plainRuns_field0]; decide,
    by decide, by decide, by decide,
    (ordinary_subcode_decode exampleLUT zeroBuffer plainRuns (by decide)
      (by rw [plainRuns_field0]; decide) (by rw [plainRuns_field0]; decide)).1,
    ((ordinary_subcode_decode exampleLUT zeroBuffer plainRuns (by decide)
      (by rw [plainRuns_field0]; decide) (by rw [plainRuns_field0]; decide)).2.2.2.1
      (plainRuns_field0 ▸ exampleLUT_ne_of_ge 1024 (by decide))).2,
    ((ordinary_subcode_decode exampleLUT zeroBuffer [3] (by decide) (by decide)
      (by decide)).2.2.1 ⟨⟨0, by decide⟩, by decide⟩).2.1⟩

/-- Claim C15 (only the 33 symbol fields are interpreted): for any two run-length
sequences whose clamped runs each sum to at least 585 bits and whose channel
bitstreams agree on the 14 bits of every field at offsets `27 + 17 k` (`k` in 0..32),
`setTValues` yields identical frames (from the same prior frame, a newly constructed
one in particular, and whatever the two working buffers held); the 27 leading bits,
the 3 merging bits after each field and the bits from position 585 onward are not
constrained and so never influence the result. -/
theorem only_symbol_fields_interpreted (lut : EfmTable) (raw1 raw2 : List Nat)
    (hraw1 : raw1.length = 75) (hraw2 : raw2.length = 75) (self : F3Frame)
    (ts1 ts2 : List Int) (hS1 : 585 ≤ (ts1.map rangeCheck).sum)
    (hS2 : 585 ≤ (ts2.map rangeCheck).sum)
    (hagree : ∀ k, k < 33 → ∀ b, b < 14 →
      channelBit (ts1.map rangeCheck) (27 + 17 * k + b) =
        channelBit (ts2.map rangeCheck) (27 + 17 * k + b)) :
    setTValues lut raw1 self ts1 = setTValues lut raw2 self ts2 ∧
    setTValues lut raw1 F3Frame.F3Frame ts1 = setTValues lut raw2 F3Frame.F3Frame ts2 := by
  have key : ∀ s : F3Frame, setTValues lut raw1 s ts1 = setTValues lut raw2 s ts2 := by
    intro s
    apply setTValues_congr lut raw1 raw2 s ts1 ts2 (ne_nil_of_nominal ts1 hS1)
      (ne_nil_of_nominal ts2 hS2)
    intro k hk
    rw [bufferField_of_nominal raw1 ts1 k hraw1 hS1 hk,
      bufferField_of_nominal raw2 ts2 k hraw2 hS2 hk]
    unfold channelField
    apply msbValue_congr
    intro n h1 h2
    have := hagree k hk (n - (27 + 17 * k)) (by omega)
    have e : 27 + 17 * k + (n - (27 + 17 * k)) = n := by omega
    rw [e] at this
    exact this
  exact ⟨key self, key _⟩

/-- Claim C16 (excess input is ignored): for every run-length sequence `xs` whose
clamped runs sum to at least 585 bits and every sequence `ys`, `setTValues (xs ++ ys)`
yields the same frame as `setTValues xs` (from the same prior frame, a newly
constructed one in particular). -/
theorem excess_input_ignored (lut : EfmTable) (raw1 raw2 : List Nat)
    (hraw1 : raw1.length = 75) (hraw2 : raw2.length = 75) (self : F3Frame)
    (xs ys : List Int) (hS : 585 ≤ (xs.map rangeCheck).sum) :
    setTValues lut raw1 self (xs ++ ys) = setTValues lut raw2 self xs ∧
    setTValues lut raw1 F3Frame.F3Frame (xs ++ ys) = setTValues lut raw2 F3Frame.F3Frame xs := by
  have hlx := map_rangeCheck_legal xs
  have hly := map_rangeCheck_legal ys
  have hlenx := channelBits_length _ hlx
  have hsum : 585 ≤ ((xs ++ ys).map rangeCheck).sum := by
    rw [List.map_append, List.sum_append]
    have := sum_nonneg_of_legal _ hly
    omega
  have key : ∀ s : F3Frame, setTValues lut raw1 s (xs ++ ys) = setTValues lut raw2 s xs := by
    intro s
    apply setTValues_congr lut raw1 raw2 s (xs ++ ys) xs (ne_nil_of_nominal _ hsum)
      (ne_nil_of_nominal xs hS)
    intro k hk
    rw [bufferField_of_nominal raw1 (xs ++ ys) k hraw1 hsum hk,
      bufferField_of_nominal raw2 xs k hraw2 hS hk]
    unfold channelField
    apply msbValue_congr
    intro n _ h2
    unfold channelBit
    rw [List.map_append, channelBits_append, List.getD_append _ _ _ _ (by omega)]
  exact ⟨key self, key _⟩

/-- Claim C17 (nominal frames never read unwritten buffer bytes): for every
run-length sequence whose clamped runs sum to at least 585 bits, every buffer byte
read by the 33 field extractions (bytes 3..73) has been written by the expansion or
the final flush, so the decoded frame is the same for every initial content of
`rawFrameData`. -/
theorem nominal_frame_reads_written (lut : EfmTable) (raw1 raw2 : List Nat)
    (hraw1 : raw1.length = 75) (hraw2 : raw2.length = 75) (self : F3Frame)
    (ts : List Int) (hS : 585 ≤ (ts.map rangeCheck).sum) :
    (∀ i ∈ setTValuesReads ts, 3 ≤ i ∧ i ≤ 73 ∧ i ∈ setTValuesWrites raw1 ts) ∧
    (∀ i, 3 ≤ i → i ≤ 73 → i ∈ setTValuesReads ts) ∧
    setTValues lut raw1 self ts = setTValues lut raw2 self ts ∧
    setTValues lut raw1 F3Frame.F3Frame ts = setTValues lut raw2 F3Frame.F3Frame ts := by
  have hl := map_rangeCheck_legal ts
  have hlen := channelBits_length _ hl
  have hne := ne_nil_of_nominal ts hS
  have hemp : ts.isEmpty = false := by
    cases ts with
    | nil => exact absurd rfl hne
    | cons _ _ => rfl
  have key : ∀ s : F3Frame, setTValues lut raw1 s ts = setTValues lut raw2 s ts := by
    intro s
    apply setTValues_congr lut raw1 raw2 s ts ts hne hne
    intro k hk
    rw [bufferField_of_nominal raw1 ts k hraw1 hS hk,
      bufferField_of_nominal raw2 ts k hraw2 hS hk]
  refine ⟨?_, ?_, key self, key _⟩
  · intro i hi
    obtain ⟨k, hk, j, hj, hij⟩ := mem_setTValuesReads ts i hi
    refine ⟨by omega, by omega, ?_⟩
    unfold setTValuesWrites
    rw [hemp]
    simp only [Bool.false_eq_true, if_false]
    rw [mem_expandTValuesWrites, expandRuns_final_bytePosition raw1 _ hraw1 hl]
    omega
  · intro i h3 h73
    unfold setTValuesReads
    rw [hemp]
    simp only [Bool.false_eq_true, if_false]
    rw [mem_extractEfmValuesReads]
    by_cases hlast : i = 73
    · exact ⟨32, by omega, 13, by omega, by omega⟩
    · refine ⟨(8 * i - 20) / 17, by omega, ?_⟩
      by_cases hfit : 8 * i ≤ 27 + 17 * ((8 * i - 20) / 17)
      · exact ⟨0, by omega, by omega⟩
      · exact ⟨8 * i - (27 + 17 * ((8 * i - 20) / 17)), by omega, by omega⟩

theorem channelBit_agree_of_window (cs1 cs2 : List Int)
    (h : ((channelBits cs1).take 585).drop 27 = ((channelBits cs2).take 585).drop 27) :
    ∀ k, k < 33 → ∀ b, b < 14 →
      channelBit cs1 (27 + 17 * k + b) = channelBit cs2 (27 + 17 * k + b) := by
  intro k hk b hb
  have key : ∀ cs : List Int, channelBit cs (27 + 17 * k + b) =
      (((channelBits cs).take 585).drop 27).getD (17 * k + b) false := by
    intro cs
    unfold channelBit
    rw [List.getD_eq_getElem?_getD, List.getD_eq_getElem?_getD, List.getElem?_drop,
      List.getElem?_take_of_lt (by omega)]
    congr 2
    omega
  rw [key cs1, key cs2, h]

set_option maxRecDepth 100000 in
theorem sync0Variant_agrees : ∀ k, k < 33 → ∀ b, b < 14 →
    channelBit (sync0Runs.map rangeCheck) (27 + 17 * k + b) =
      channelBit (sync0Variant.map rangeCheck) (27 + 17 * k + b) :=
  channelBit_agree_of_window _ _ (by decide)

theorem only_symbol_fields_interpreted_witness :
    zeroBuffer.length = 75 ∧ staleBuffer.length = 75 ∧
    585 ≤ (sync0Runs.map rangeCheck).sum ∧ 585 ≤ (sync0Variant.map rangeCheck).sum ∧
    (∀ k, k < 33 → ∀ b, b < 14 →
      channelBit (sync0Runs.map rangeCheck) (27 + 17 * k + b) =
        channelBit (sync0Variant.map rangeCheck) (27 + 17 * k + b)) ∧
    sync0Runs ≠ sync0Variant ∧
    setTValues exampleLUT zeroBuffer F3Frame.F3Frame sync0Runs =
      setTValues exampleLUT staleBuffer F3Frame.F3Frame sync0Variant :=
  ⟨by decide, by decide, by decide, by decide, sync0Variant_agrees, by decide,
    (only_symbol_fields_interpreted exampleLUT zeroBuffer staleBuffer (by decide) (by decide)
      F3Frame.F3Frame sync0Runs sync0Variant (by decide) (by decide) sync0Variant_agrees).2⟩

theorem excess_input_ignored_witness :
    zeroBuffer.length = 75 ∧ staleBuffer.length = 75 ∧
    585 ≤ (sync0Runs.map rangeCheck).sum ∧
    setTValues exampleLUT zeroBuffer F3Frame.F3Frame (sync0Runs ++ [5, 0, 200]) =
      setTValues exampleLUT staleBuffer F3Frame.F3Frame sync0Runs :=
  ⟨by decide, by decide, by decide,
    (excess_input_ignored exampleLUT zeroBuffer staleBuffer (by decide) (by decide)
      F3Frame.F3Frame sync0Runs [5, 0, 200] (by decide)).2⟩

theorem nominal_frame_reads_written_witness :
    zeroBuffer.length = 75 ∧ staleBuffer.length = 75 ∧
    585 ≤ (nominalRuns.map rangeCheck).sum ∧
    setTValues exampleLUT zeroBuffer F3Frame.F3Frame nominalRuns =
      setTValues exampleLUT staleBuffer F3Frame.F3Frame nominalRuns ∧
    73 ∈ setTValuesReads nominalRuns :=
  ⟨by decide, by decide, by decide,
    (nominal_frame_reads_written exampleLUT zeroBuffer staleBuffer (by decide) (by decide)
      F3Frame.F3Frame nominalRuns (by decide)).2.2.2,
    (nominal_frame_reads_written exampleLUT zeroBuffer staleBuffer (by decide) (by decide)
      F3Frame.F3Frame nominalRuns (by decide)).2.1 73 (by decide) (by decide)⟩

theorem setTValues_symbols_eq_new (lut : EfmTable) (raw0 : List Nat) (s : F3Frame)
    (ts : List Int) (hne : ts ≠ []) (hd : s.dataSymbols.length = 32)
    (he : s.errorSymbols.length = 32) :
    (setTValues lut raw0 s ts).dataSymbols =
      (setTValues lut raw0 F3Frame.F3Frame ts).dataSymbols ∧
    (setTValues lut raw0 s ts).errorSymbols =
      (setTValues lut raw0 F3Frame.F3Frame ts).errorSymbols := by
  obtain ⟨hl1, hl2⟩ := setTValues_length lut raw0 s ts
  obtain ⟨hl3, hl4⟩ := setTValues_length lut raw0 F3Frame.F3Frame ts
  have hn1 : F3Frame.F3Frame.dataSymbols.length = 32 := rfl
  have hn2 : F3Frame.F3Frame.errorSymbols.length = 32 := rfl
  constructor
  · apply List.ext_getElem?
    intro j
    by_cases hj : j < 32
    · rw [(setTValues_symbols lut raw0 s ts hne j hj).1 hd,
        (setTValues_symbols lut raw0 F3Frame.F3Frame ts hne j hj).1 hn1]
    · rw [List.getElem?_eq_none (by omega), List.getElem?_eq_none (by omega)]
  · apply List.ext_getElem?
    intro j
    by_cases hj : j < 32
    · rw [(setTValues_symbols lut raw0 s ts hne j hj).2 he,
        (setTValues_symbols lut raw0 F3Frame.F3Frame ts hne j hj).2 hn2]
    · rw [List.getElem?_eq_none (by omega), List.getElem?_eq_none (by omega)]

/-- Claim C18 (dependence on the previous state of a reused frame): for every prior
frame state `s` (with its 32 data and 32 error symbols) and every non-empty run-length
sequence `ts`, after `setTValues ts` on `s` the fields `dataSymbols`, `errorSymbols` and
`subcodeSymbol` equal those obtained by `setTValues ts` on a newly constructed frame,
while each sync flag equals the prior flag OR the flag the fresh decode would set;
`setTValues` never changes a sync flag from true to false. -/
theorem reused_frame_dependence (lut : EfmTable) (raw0 : List Nat) (s : F3Frame)
    (ts : List Int) (hne : ts ≠ []) (hd : s.dataSymbols.length = 32)
    (he : s.errorSymbols.length = 32) :
    (setTValues lut raw0 s ts).dataSymbols =
      (setTValues lut raw0 F3Frame.F3Frame ts).dataSymbols ∧
    (setTValues lut raw0 s ts).errorSymbols =
      (setTValues lut raw0 F3Frame.F3Frame ts).errorSymbols ∧
    (setTValues lut raw0 s ts).subcodeSymbol =
      (setTValues lut raw0 F3Frame.F3Frame ts).subcodeSymbol ∧
    (setTValues lut raw0 s ts).isSync0 =
      (s.isSync0 || (setTValues lut raw0 F3Frame.F3Frame ts).isSync0) ∧
    (setTValues lut raw0 s ts).isSync1 =
      (s.isSync1 || (setTValues lut raw0 F3Frame.F3Frame ts).isSync1) ∧
    (s.isSync0 = true → (setTValues lut raw0 s ts).isSync0 = true) ∧
    (s.isSync1 = true → (setTValues lut raw0 s ts).isSync1 = true) := by
  obtain ⟨h1, h2⟩ := setTValues_symbols_eq_new lut raw0 s ts hne hd he
  have h3 : (setTValues lut raw0 s ts).isSync0 =
      (s.isSync0 || (setTValues lut raw0 F3Frame.F3Frame ts).isSync0) := by
    rw [setTValues_isSync0 lut raw0 s ts hne, setTValues_isSync0 lut raw0 _ ts hne]
    simp [F3Frame.F3Frame]
  have h4 : (setTValues lut raw0 s ts).isSync1 =
      (s.isSync1 || (setTValues lut raw0 F3Frame.F3Frame ts).isSync1) := by
    rw [setTValues_isSync1 lut raw0 s ts hne, setTValues_isSync1 lut raw0 _ ts hne]
    simp [F3Frame.F3Frame]
  refine ⟨h1, h2, ?_, h3, h4, ?_, ?_⟩
  · rw [setTValues_subcodeSymbol lut raw0 s ts hne, setTValues_subcodeSymbol lut raw0 _ ts hne]
  · intro h
    rw [h3, h]
    rfl
  · intro h
    rw [h4, h]
    rfl

theorem reused_frame_dependence_witness :
    sync1Runs ≠ [] ∧ usedFrame.dataSymbols.length = 32 ∧
    usedFrame.errorSymbols.length = 32 ∧ usedFrame.isSync0 = true ∧
    (setTValues exampleLUT zeroBuffer usedFrame sync1Runs).isSync0 = true ∧
    (setTValues exampleLUT zeroBuffer usedFrame sync1Runs).dataSymbols =
      (setTValues exampleLUT zeroBuffer F3Frame.F3Frame sync1Runs).dataSymbols :=
  ⟨by decide, by decide, by decide, by decide,
    (reused_frame_dependence exampleLUT zeroBuffer usedFrame sync1Runs (by decide) (by decide)
      (by decide)).2.2.2.2.2.1 (by decide),
    (reused_frame_dependence exampleLUT zeroBuffer usedFrame sync1Runs (by decide) (by decide)
      (by decide)).1⟩

/-! ## A run that reaches the ceiling of the buffer is cut -/

end LdProcessEfm
